import Mathlib

/-!
Verification development for the lighthouse-aaa core: the page dependency
graph builder, the graph traversal utilities, the First-CPU-Idle quiet-window
search, the main-thread task tree, the Lantern simulator and the computed
artifact cache.

The implementation files of the core are not part of the source snapshot
(only their test files are), so the definitions below are modelled from the
natural-language specification, with every behaviour that the repository's
own test files pin down reproduced exactly (the concrete fixtures of those
tests appear below and the expected outputs are proved by evaluation).
-/

namespace LH

/-! # Data model (spec section 3): network records and trace events -/

/-- Resource type of a network request (spec: Document/Script/Image/XHR/...).
Only the types exercised by the core are distinguished. -/
inductive ResourceType
  | document
  | script
  | xhr
  | other
deriving DecidableEq

/-- Initiator of a network request. Modelled from the spec: an initiator is
either absent, carries a direct url (the parser/redirect cases, whose
initiator object has a `url` field naming the resource that triggered the
request), or is a script initiator holding a chain of stack-frame groups
(each group being the list of call-frame urls; the chain walks
`stack.parent` outward). -/
inductive Initiator
  | absent
  | url (u : String)
  | script (stack : List (List String))
deriving DecidableEq

/-- A parsed network request record (spec section 3, NetworkRequestRecord).
`startTime`/`endTime` are in microseconds (the same clock as the trace
timestamps, so the cross-domain comparisons of the linking rules are
direct); `redirects` holds the request ids of the records folded into this
request's redirect chain. -/
structure NetworkRecord where
  requestId : ℕ
  url : String
  startTime : ℤ
  endTime : ℤ
  initiator : Initiator
  resourceType : ResourceType
  redirects : List ℕ
deriving DecidableEq

/-- Payload of a trace event's `args.data`, restricted to the fields the
dependency-graph builder inspects. -/
structure ChildData where
  url : Option String
  stackTrace : Option (List String)
  timerId : Option ℕ
  readyState : Option ℕ
  requestId : Option ℕ
deriving DecidableEq

/-- A main-thread trace event: name, thread id, timestamp and duration in
microseconds, and optional `args.data` payload. -/
structure TraceEvent where
  name : String
  tid : ℕ
  ts : ℕ
  dur : ℕ
  data : Option ChildData
deriving DecidableEq

/-! # CPU nodes (spec section 4.1, bullet 2) -/

/-- A top-level CPU task node: thread id, start timestamp and duration in
microseconds, plus all nested trace events captured as child events. -/
structure CPUNode where
  tid : ℕ
  ts : ℕ
  dur : ℕ
  childEvents : List TraceEvent
deriving DecidableEq

/-- Whether a trace event is a scheduleable top-level task of the main
thread (the task-queue-manager names used by the trace processor). -/
def isScheduleableTask (e : TraceEvent) : Bool :=
  e.name = "TaskQueueManager::ProcessTaskFromWorkQueue" ||
  e.name = "ThreadControllerImpl::DoWork" ||
  e.name = "ThreadControllerImpl::RunTask"

/-- Open a CPU node for a just-seen top-level task event. -/
def openTask (e : TraceEvent) : CPUNode :=
  { tid := e.tid, ts := e.ts, dur := e.dur, childEvents := [] }

/-- Working loop collecting top-level tasks: while a task window is open,
following events whose timestamp lies before the task's end are captured
as its child events; the first event at or past the end closes the task,
and a new task is opened only at a scheduleable event of non-zero
duration. -/
def getCPUNodesGo : List TraceEvent → Option (ℕ × CPUNode) → List CPUNode
  | [], none => []
  | [], some (_, c) => [c]
  | e :: rest, none =>
    if isScheduleableTask e && decide (e.dur ≠ 0) then
      getCPUNodesGo rest (some (e.ts + e.dur, openTask e))
    else
      getCPUNodesGo rest none
  | e :: rest, some (endTs, c) =>
    if e.ts < endTs then
      getCPUNodesGo rest (some (endTs, { c with childEvents := c.childEvents ++ [e] }))
    else
      c ::
        (if isScheduleableTask e && decide (e.dur ≠ 0) then
          getCPUNodesGo rest (some (e.ts + e.dur, openTask e))
        else
          getCPUNodesGo rest none)

/-- Modelled from the spec: one CPUNode per top-level task found on the main
thread, id `threadId.startTimestampMicros`, containing all nested trace
events as childEvents (spec section 4.1). Tasks with zero duration are
skipped. -/
def getCPUNodes (trace : List TraceEvent) : List CPUNode :=
  getCPUNodesGo trace none

theorem getCPUNodesGo_dur_ne_zero (trace : List TraceEvent) :
    ∀ st, (∀ p : ℕ × CPUNode, st = some p → p.2.dur ≠ 0) →
      ∀ c ∈ getCPUNodesGo trace st, c.dur ≠ 0 := by
  induction trace with
  | nil =>
    intro st hst c hc
    cases st with
    | none => simp [getCPUNodesGo] at hc
    | some p =>
      simp only [getCPUNodesGo, List.mem_singleton] at hc
      subst hc
      exact hst p rfl
  | cons e rest ih =>
    intro st hst c hc
    cases st with
    | none =>
      rw [getCPUNodesGo] at hc
      by_cases h : (isScheduleableTask e && decide (e.dur ≠ 0)) = true
      · rw [if_pos h] at hc
        refine ih _ ?_ c hc
        rintro p hp
        cases hp
        simpa [openTask] using of_decide_eq_true (Bool.and_elim_right h)
      · rw [if_neg h] at hc
        exact ih _ (by rintro p h2; exact absurd h2 (by simp)) c hc
    | some p =>
      obtain ⟨endTs, c0⟩ := p
      rw [getCPUNodesGo] at hc
      by_cases h1 : e.ts < endTs
      · rw [if_pos h1] at hc
        refine ih _ ?_ c hc
        rintro p hp
        cases hp
        exact hst (endTs, c0) rfl
      · rw [if_neg h1] at hc
        rcases List.mem_cons.mp hc with hc | hc
        · subst hc; exact hst (endTs, c) rfl
        · by_cases h : (isScheduleableTask e && decide (e.dur ≠ 0)) = true
          · rw [if_pos h] at hc
            refine ih _ ?_ c hc
            rintro p hp
            cases hp
            simpa [openTask] using of_decide_eq_true (Bool.and_elim_right h)
          · rw [if_neg h] at hc
            exact ih _ (by rintro p h2; exact absurd h2 (by simp)) c hc

/-- Every CPU node produced from a trace has non-zero duration. -/
theorem getCPUNodes_dur_ne_zero (trace : List TraceEvent) :
    ∀ c ∈ getCPUNodes trace, c.dur ≠ 0 :=
  getCPUNodesGo_dur_ne_zero trace none (by rintro p h; exact absurd h (by simp))

/-! # The dependency graph (spec sections 3 and 4.2) -/

/-- Identity of a graph vertex: a network node is identified by its request
id, a CPU node by its `threadId.startTimestampMicros` pair. -/
inductive NodeId
  | net (rid : ℕ)
  | cpu (tid ts : ℕ)
deriving DecidableEq

/-- The dependency graph: the vertices in creation order plus the edge list
in insertion order. An edge `(a, b)` records that `a` depends on `b`
(`b` is a dependency of `a`, `a` is a dependent of `b`). -/
structure Graph where
  nodeIds : List NodeId
  edges : List (NodeId × NodeId)
deriving DecidableEq

/-- Dependencies of a node, in the order the edges were inserted. -/
def Graph.getDependencies (g : Graph) (n : NodeId) : List NodeId :=
  (g.edges.filter (fun e => decide (e.1 = n))).map (fun e => e.2)

/-- Dependents of a node, in the order the edges were inserted. -/
def Graph.getDependents (g : Graph) (n : NodeId) : List NodeId :=
  (g.edges.filter (fun e => decide (e.2 = n))).map (fun e => e.1)

/-- One round of transitive-dependency closure: all edge targets whose
source is already accumulated and that are not yet accumulated. -/
def depsClosure (edges : List (NodeId × NodeId)) : ℕ → List NodeId → List NodeId
  | 0, acc => acc
  | fuel + 1, acc =>
    let fresh :=
      ((edges.filter (fun e => decide (e.1 ∈ acc))).map (fun e => e.2)).filter
        (fun x => decide (x ∉ acc))
    match fresh with
    | [] => acc
    | _ => depsClosure edges fuel (acc ++ fresh)

/-- Whether `a` transitively depends on `b` (i.e. `b` is reachable from `a`
along dependency edges). -/
def Graph.isDependentOn (g : Graph) (a b : NodeId) : Bool :=
  decide (b ∈ depsClosure g.edges (g.edges.length + 1) [a])

/-- Guarded edge insertion: record that `a` depends on `b`. The edge is
dropped rather than inserted when it already exists, when it would be a
self-edge, or when it would close a cycle (`b` already transitively depends
on `a`) — the "forgiving" behaviour of spec section 4.1. -/
def Graph.addDependency (g : Graph) (a b : NodeId) : Graph :=
  if a = b then g
  else if (a, b) ∈ g.edges then g
  else if g.isDependentOn b a then g
  else { g with edges := g.edges ++ [(a, b)] }

/-- Breadth-first traversal working loop: pop the head of the queue, emit
it, and enqueue its not-yet-visited dependents (marking them visited at
enqueue time), exactly as the traversal utility walks dependents from the
root. -/
def Graph.bfs (g : Graph) : ℕ → List NodeId → List NodeId → List NodeId → List NodeId
  | 0, _, _, out => out
  | _ + 1, [], _, out => out
  | fuel + 1, n :: rest, visited, out =>
    g.bfs fuel
      (rest ++ (g.getDependents n).filter (fun d => decide (d ∉ visited)))
      (visited ++ (g.getDependents n).filter (fun d => decide (d ∉ visited)))
      (out ++ [n])

/-- Graph traversal from the root (spec section 4.2): breadth-first over
dependent edges with a visited set, so every node is visited at most once
even on adversarial input. The fuel is sufficient for every graph whose
edge endpoints are among its vertices. -/
def Graph.traverse (g : Graph) (root : NodeId) : List NodeId :=
  g.bfs (2 * g.nodeIds.length + 2) [root] [root] []

/-! # The page dependency graph builder (spec section 4.1) -/

namespace PageDependencyGraph

/-- Modelled from the spec: the initiator urls of a record. A direct
initiator url (parser / redirect initiators) yields that url; a script
initiator yields the distinct non-empty call-frame urls of its whole stack
chain in first-occurrence order. -/
def getNetworkInitiators (r : NetworkRecord) : List String :=
  match r.initiator with
  | .absent => []
  | .url u => [u]
  | .script stack =>
    ((stack.flatten).filter (fun u => decide (u ≠ ""))).foldl
      (fun acc u => if u ∈ acc then acc else acc ++ [u]) []

/-- The records sharing a url, in record order (the url-to-node index of
spec section 4.1, which maps a url to the list of nodes for that url). -/
def urlCandidates (records : List NetworkRecord) (u : String) : List NetworkRecord :=
  records.filter (fun c => decide (c.url = u))

/-- Modelled from the spec: resolve one initiator url of record `r` to the
parent node it should depend on. The initiator relationship is only used
when it is unambiguous — exactly one node has that url — and that node is a
different request that started strictly before `r`; otherwise the root is
the parent (a request with no resolvable initiator depends on the root,
spec rule 3; the repository's duplicate-URL test pins the ambiguous case to
the root). -/
def initiatorParent (records : List NetworkRecord) (root : NetworkRecord)
    (r : NetworkRecord) (u : String) : NodeId :=
  match urlCandidates records u with
  | [c] =>
    if c.requestId ≠ r.requestId ∧ c.startTime < r.startTime then .net c.requestId
    else .net root.requestId
  | _ => .net root.requestId

/-- Link one network record: nothing for the root itself; otherwise one
edge per initiator url (resolved by `initiatorParent`), or a single edge to
the root when the record has no initiators. -/
def linkNetworkNode (records : List NetworkRecord) (root : NetworkRecord)
    (g : Graph) (r : NetworkRecord) : Graph :=
  if r.requestId = root.requestId then g
  else
    match getNetworkInitiators r with
    | [] => g.addDependency (.net r.requestId) (.net root.requestId)
    | u :: us => (u :: us).foldl
        (fun g2 v => g2.addDependency (.net r.requestId) (initiatorParent records root r v)) g

/-- Modelled from the spec: dependency linking rules 1-3 of section 4.1,
applied to every network record in order. -/
def linkNetworkNodes (records : List NetworkRecord) (root : NetworkRecord)
    (g : Graph) : Graph :=
  records.foldl (linkNetworkNode records root) g

/-- Graph id of a CPU node. -/
def cpuId (c : CPUNode) : NodeId := .cpu c.tid c.ts

/-- Modelled from the spec (rule 4): make CPU task `node` depend on the
network node(s) for url `u` — every candidate whose request started at or
before the task's start (a request that started after the task began cannot
be something the task needed; the repository's cycle test pins this). The
guarded insertion drops the edge if it would create a cycle. -/
def addDependencyOnUrl (records : List NetworkRecord) (node : CPUNode)
    (g : Graph) (u : String) : Graph :=
  if u = "" then g
  else
    (urlCandidates records u).foldl
      (fun g2 c =>
        if c.startTime ≤ (node.ts : ℤ) then
          g2.addDependency (cpuId node) (.net c.requestId)
        else g2) g

/-- Modelled from the spec (rule 4): a network request initiated inside the
task (ResourceSendRequest child event) depends on that CPU task, provided
the request is an XHR-style request that started strictly after the task
started, and is not the root. -/
def addDependentNetworkRequest (records : List NetworkRecord) (root : NetworkRecord)
    (node : CPUNode) (g : Graph) (rid : ℕ) : Graph :=
  match records.find? (fun c => decide (c.requestId = rid)) with
  | some c =>
    if c.resourceType = .xhr ∧ (node.ts : ℤ) < c.startTime ∧
        c.requestId ≠ root.requestId then
      g.addDependency (.net c.requestId) (cpuId node)
    else g
  | none => g

/-- State threaded through CPU linking: the graph so far plus the timer
side-table mapping a timerId to the task that installed it (newest install
wins, spec rule 5). -/
structure LinkState where
  g : Graph
  timers : List (ℕ × CPUNode)

/-- The urls attributable from one child event: the event's own url (if
any) followed by its stack-trace urls. -/
def eventUrls (d : ChildData) : List String :=
  (match d.url with | some u => [u] | none => []) ++
  (match d.stackTrace with | some l => l | none => [])

/-- Modelled from the spec (rules 4 and 5): process one child event of a
CPU task. TimerInstall records the installer; TimerFire makes the firing
task depend on the installing task when the installer finished before the
fire; EvaluateScript / layout-invalidation / completed XHR events attribute
urls (event url and stack urls); FunctionCall and compile events attribute
the event url; ResourceSendRequest links the request sent inside the task
back onto the task. -/
def processChildEvent (records : List NetworkRecord) (root : NetworkRecord)
    (node : CPUNode) (st : LinkState) (evt : TraceEvent) : LinkState :=
  match evt.data with
  | none => st
  | some d =>
    if evt.name = "TimerInstall" then
      match d.timerId with
      | some tId => { st with timers := (tId, node) :: st.timers }
      | none => st
    else if evt.name = "TimerFire" then
      match d.timerId with
      | some tId =>
        match st.timers.find? (fun p => decide (p.1 = tId)) with
        | some p =>
          if p.2.ts + p.2.dur ≤ node.ts then
            { st with g := st.g.addDependency (cpuId node) (cpuId p.2) }
          else st
        | none => st
      | none => st
    else if evt.name = "EvaluateScript" ∨ evt.name = "InvalidateLayout" ∨
        evt.name = "ScheduleStyleRecalculation" then
      { st with g := (eventUrls d).foldl (addDependencyOnUrl records node) st.g }
    else if evt.name = "XHRReadyStateChange" then
      if d.readyState = some 4 then
        { st with g := (eventUrls d).foldl (addDependencyOnUrl records node) st.g }
      else st
    else if evt.name = "FunctionCall" ∨ evt.name = "v8.compile" then
      match d.url with
      | some u => { st with g := addDependencyOnUrl records node st.g u }
      | none => st
    else if evt.name = "ResourceSendRequest" then
      match d.requestId with
      | some rid => { st with g := addDependentNetworkRequest records root node st.g rid }
      | none => st
    else st

/-- Link one CPU node: process all its child events, then fall back to a
dependency on the root when the task acquired no dependency at all (a task
is never left orphaned). -/
def linkCPUNode (records : List NetworkRecord) (root : NetworkRecord)
    (st : LinkState) (node : CPUNode) : LinkState :=
  let st2 := node.childEvents.foldl (processChildEvent records root node) st
  if st2.g.getDependencies (cpuId node) = [] then
    { st2 with g := st2.g.addDependency (cpuId node) (.net root.requestId) }
  else st2

/-- Modelled from the spec: dependency linking rules 4-5 of section 4.1,
applied to every CPU node in order with a shared timer side-table. -/
def linkCPUNodes (records : List NetworkRecord) (root : NetworkRecord)
    (g : Graph) (cpuNodes : List CPUNode) : Graph :=
  (cpuNodes.foldl (linkCPUNode records root) { g := g, timers := [] }).g

/-- Construction failure: the root request is not related to the main
document (spec section 7, GraphConstructionError). -/
inductive GraphError
  | rootNodeNotRelatedToMainDocument
deriving DecidableEq

/-- Result of graph construction: the graph plus the id of its root node. -/
structure GraphResult where
  graph : Graph
  root : NodeId
deriving DecidableEq

instance : DecidableEq (Except GraphError GraphResult) := fun a b =>
  match a, b with
  | .ok x, .ok y => decidable_of_iff (x = y) (by simp)
  | .error x, .error y => decidable_of_iff (x = y) (by simp)
  | .ok _, .error _ => isFalse (by simp)
  | .error _, .ok _ => isFalse (by simp)

/-- Keep the earlier of an accumulated record and a new record (the
accumulated one wins ties, as the reduce in the source keeps the first). -/
def earlierOf (acc : Option NetworkRecord) (r : NetworkRecord) : Option NetworkRecord :=
  match acc with
  | none => some r
  | some m => if m.startTime ≤ r.startTime then some m else some r

/-- The earliest-starting record, position in the list breaking ties. -/
def earliestRecord (records : List NetworkRecord) : Option NetworkRecord :=
  records.foldl earlierOf none

/-- The earliest-starting record whose resource type is Document. -/
def earliestDocument (records : List NetworkRecord) : Option NetworkRecord :=
  earliestRecord (records.filter (fun r => decide (r.resourceType = .document)))

/-- The vertex set before linking: one network node per record (creation
order), then one CPU node per top-level task. -/
def initialGraph (records : List NetworkRecord) (cpuNodes : List CPUNode) : Graph :=
  { nodeIds := records.map (fun r => .net r.requestId) ++ cpuNodes.map cpuId,
    edges := [] }

/-- Modelled from the spec (section 4.1): `createGraph(threadEvents,
networkRecords) -> rootNode`. The root is the earliest network request; the
main document is the earliest Document-typed request; construction fails
with a GraphConstructionError when no Document request exists or when the
root request is neither the main document itself nor part of its redirect
chain. Otherwise the network and CPU linking rules run and the rooted graph
is returned. -/
def createGraph (trace : List TraceEvent) (records : List NetworkRecord) :
    Except GraphError GraphResult :=
  match earliestRecord records, earliestDocument records with
  | some rootRequest, some mainDocumentRequest =>
    if mainDocumentRequest = rootRequest ∨
        rootRequest.requestId ∈ mainDocumentRequest.redirects then
      .ok { graph := linkCPUNodes records rootRequest
              (linkNetworkNodes records rootRequest
                (initialGraph records (getCPUNodes trace)))
              (getCPUNodes trace),
            root := .net rootRequest.requestId }
    else .error .rootNodeNotRelatedToMainDocument
  | _, _ => .error .rootNodeNotRelatedToMainDocument

end PageDependencyGraph

/-! # Concrete fixtures from the repository's page-dependency-graph tests -/

/-- Build a request the way the test helper `createRequest` does: a start
time given in milliseconds (stored in microseconds), the request lasting
50ms. -/
def mkRequest (rid : ℕ) (u : String) (startMs : ℤ) (init : Initiator)
    (rt : ResourceType) : NetworkRecord :=
  { requestId := rid, url := u, startTime := startMs * 1000,
    endTime := startMs * 1000 + 50000, initiator := init, resourceType := rt,
    redirects := [] }

/-- The top-level task name used by the tests. -/
def toplevelTaskName : String := "TaskQueueManager::ProcessTaskFromWorkQueue"

/-- A top-level task event at `startMs` lasting `durMs` (milliseconds as in
the test helper `addTaskEvents`, stored in microseconds). -/
def mkTask (startMs durMs : ℕ) : TraceEvent :=
  { name := toplevelTaskName, tid := 1, ts := startMs * 1000, dur := durMs * 1000,
    data := none }

/-- A child event with explicit data, timestamped like `addTaskEvents` does
(task start in microseconds plus the child's ordinal). -/
def mkChild (nm : String) (startMs i : ℕ) (d : ChildData) : TraceEvent :=
  { name := nm, tid := 1, ts := startMs * 1000 + i, dur := 0, data := some d }

/-- Empty child-event payload. -/
def noData : ChildData :=
  { url := none, stackTrace := none, timerId := none, readyState := none,
    requestId := none }

/-- Fixture of the test "should compute a simple network graph": requests
"1" at t=0, "2" and "3" at t=5, "4" at t=10 initiated by url "2". -/
def simpleRecords : List NetworkRecord :=
  [mkRequest 1 "1" 0 .absent .document,
   mkRequest 2 "2" 5 .absent .document,
   mkRequest 3 "3" 5 .absent .document,
   mkRequest 4 "4" 10 (.url "2") .document]

/-- The trace used by the network-only graph tests: a single zero-duration
task (which produces no CPU node). -/
def emptyTaskTrace : List TraceEvent := [mkTask 0 0]

/-- Fixture of the test "should compute a network graph with duplicate
URLs": requests 2 and 3 share url "2", request 4 is initiated by url "2". -/
def dupRecords : List NetworkRecord :=
  [mkRequest 1 "1" 0 .absent .document,
   mkRequest 2 "2" 5 .absent .document,
   mkRequest 3 "2" 5 .absent .document,
   mkRequest 4 "4" 10 (.url "2") .document]

/-- Fixture of the test "should compute a simple network and CPU graph". -/
def netCpuRecords : List NetworkRecord :=
  [mkRequest 1 "1" 0 .absent .document,
   mkRequest 2 "2" 50 .absent .document,
   mkRequest 3 "3" 50 .absent .document,
   mkRequest 4 "4" 300 .absent .xhr]

/-- Trace of the network-and-CPU test: a task at 200ms for 200ms containing
an EvaluateScript of url "2" and a ResourceSendRequest of request 4, and a
task at 700ms for 50ms containing an InvalidateLayout with stack url "3"
and a completed XHRReadyStateChange of url "4". -/
def netCpuTrace : List TraceEvent :=
  [mkTask 200 200,
   mkChild "EvaluateScript" 200 1 { noData with url := some "2" },
   mkChild "ResourceSendRequest" 200 2 { noData with requestId := some 4 },
   mkTask 700 50,
   mkChild "InvalidateLayout" 700 1 { noData with stackTrace := some ["3"] },
   mkChild "XHRReadyStateChange" 700 2
     { noData with readyState := some 4, url := some "4" }]

/-- Fixture of the test "should be forgiving without cyclic dependencies". -/
def cyclicRecords : List NetworkRecord :=
  [mkRequest 1 "1" 0 .absent .document,
   mkRequest 2 "2" 250 .absent .xhr,
   mkRequest 3 "3" 210 .absent .document,
   mkRequest 4 "4" 590 .absent .document,
   mkRequest 5 "5" 595 .absent .xhr]

/-- Trace of the forgiving-cycles test: a task at 200ms for 200ms
(EvaluateScript "1", ResourceSendRequest 2, completed XHR "2",
EvaluateScript "3") and a task at 600ms for 150ms (InvalidateLayout with
stack url "4", ResourceSendRequest 5). -/
def cyclicTrace : List TraceEvent :=
  [mkTask 200 200,
   mkChild "EvaluateScript" 200 1 { noData with url := some "1" },
   mkChild "ResourceSendRequest" 200 2 { noData with requestId := some 2 },
   mkChild "XHRReadyStateChange" 200 3
     { noData with readyState := some 4, url := some "2" },
   mkChild "EvaluateScript" 200 4 { noData with url := some "3" },
   mkTask 600 150,
   mkChild "InvalidateLayout" 600 1 { noData with stackTrace := some ["4"] },
   mkChild "ResourceSendRequest" 600 2 { noData with requestId := some 5 }]

/-- Fixture of the test "should set isMainDocument on first document
request": the earliest request is not a Document but is in the redirect
chain of the Document request. -/
def redirectRecords : List NetworkRecord :=
  [mkRequest 1 "1" 0 .absent .other,
   { mkRequest 2 "2" 5 .absent .document with redirects := [1] },
   mkRequest 3 "3" 0 .absent .other]

/-- Fixture of the test "should throw when root node is not related to main
document": the earliest request is not a Document and the Document request
has no redirect chain containing it. -/
def unrelatedRecords : List NetworkRecord :=
  [mkRequest 1 "1" 0 .absent .other,
   mkRequest 2 "2" 5 .absent .document]

/-- Fallback result used only to totalise the extraction of a concrete
construction result. -/
def emptyGraphResult : PageDependencyGraph.GraphResult :=
  { graph := { nodeIds := [], edges := [] }, root := .net 0 }

/-- The concrete graph built from the duplicate-URL fixture. -/
def dupResult : PageDependencyGraph.GraphResult :=
  (PageDependencyGraph.createGraph emptyTaskTrace dupRecords).toOption.getD
    emptyGraphResult

/-- The concrete graph built from the forgiving-cycles fixture. -/
def cyclicResult : PageDependencyGraph.GraphResult :=
  (PageDependencyGraph.createGraph cyclicTrace cyclicRecords).toOption.getD
    emptyGraphResult

/-- The concrete graph built from the network-and-CPU fixture. -/
def netCpuResult : PageDependencyGraph.GraphResult :=
  (PageDependencyGraph.createGraph netCpuTrace netCpuRecords).toOption.getD
    emptyGraphResult

/-- The first top-level task of the network-and-CPU fixture, as produced by
getCPUNodes. -/
def netCpuTask1 : CPUNode :=
  { tid := 1, ts := 200000, dur := 200000,
    childEvents := [mkChild "EvaluateScript" 200 1 { noData with url := some "2" },
      mkChild "ResourceSendRequest" 200 2 { noData with requestId := some 4 }] }

/-- Observable summary of a construction result: the traversal order from
the root, paired with each visited node's dependency list (exactly what the
repository's tests assert on). -/
def graphSummary (r : Except PageDependencyGraph.GraphError PageDependencyGraph.GraphResult) :
    Option (List NodeId × List (List NodeId)) :=
  r.toOption.map (fun res => (res.graph.traverse res.root,
    (res.graph.traverse res.root).map res.graph.getDependencies))

/-- Claim C1: for the four-request fixture (url "1" at t=0, urls "2" and
"3" at t=5, url "4" at t=10 with an initiator referencing url "2"),
createGraph yields a graph whose traversal visits the nodes with ids
1, 2, 3, 4 and whose dependency id lists are [], [1], [1], [2]: the
requests without a resolvable initiator depend on the root, and node 4
depends on the node for url "2". -/
theorem createGraph_simple_network_graph :
    graphSummary (PageDependencyGraph.createGraph emptyTaskTrace simpleRecords) =
      some ([.net 1, .net 2, .net 3, .net 4],
        [[], [.net 1], [.net 1], [.net 2]]) := by decide

/-- Counterexample to claim C2, at the duplicate-URL fixture of the
repository's own test (requests 2 and 3 share url "2" and both start at
t=5, before request 4 at t=10 whose initiator references url "2"): the
claim says request 4 depends on the single earliest-starting node for url
"2", but its dependency list is `[1]` — the root — containing neither node
2 nor node 3. The ambiguous initiator is not resolved to the earliest
candidate; it falls back to the root. -/
theorem createGraph_duplicate_url_counterexample :
    graphSummary (PageDependencyGraph.createGraph emptyTaskTrace dupRecords) =
      some ([.net 1, .net 2, .net 3, .net 4],
        [[], [.net 1], [.net 1], [.net 1]]) := by decide

/-- Counterexample to claim C6, at the forgiving-cycles fixture of the
repository's own test. Network request 3 starts at 210ms and ends at 260ms,
inside the CPU task spanning 200ms-400ms that evaluates its url — its
response became available during the task — yet the task's dependency list
is `[1]`, not containing node 3 (the code requires the request to have
started at or before the task's start). Likewise request 5 has its
ResourceSendRequest child event inside the task spanning 600ms-750ms, yet
its dependency list is `[1]`, not containing that task (request 5 started
at 595ms, before the task). -/
theorem createGraph_cpu_attribution_counterexample :
    graphSummary (PageDependencyGraph.createGraph cyclicTrace cyclicRecords) =
      some ([.net 1, .net 2, .net 3, .net 4, .net 5, .cpu 1 200000, .cpu 1 600000],
        [[], [.net 1, .cpu 1 200000], [.net 1], [.net 1], [.net 1],
          [.net 1], [.net 4]]) := by decide

namespace PageDependencyGraph

/-- Predicate following claim C3's words: there is a network request whose
resource type is Document and that matches the main frame/navigation chain
— the earliest Document request either is the navigation's root request
itself or carries the root request in its redirect chain. -/
def hasRelatedMainDocument (records : List NetworkRecord) : Prop :=
  ∃ root d, earliestRecord records = some root ∧
    earliestDocument records = some d ∧
    (d = root ∨ root.requestId ∈ d.redirects)

/-- Claim C3: createGraph fails with the GraphConstructionError saying the
root node is not related to the main document exactly when no Document
request matching the main navigation chain exists, and otherwise returns a
root node without throwing. The two concrete fixtures of the repository's
tests are included: the unrelated fixture throws, the redirect fixture
succeeds with root node 1. -/
theorem createGraph_root_related_iff :
    (∀ trace records, (createGraph trace records).isOk = true ↔
      hasRelatedMainDocument records) ∧
    createGraph emptyTaskTrace unrelatedRecords =
      .error .rootNodeNotRelatedToMainDocument ∧
    (createGraph emptyTaskTrace redirectRecords).isOk = true := by
  refine ⟨?_, by decide, by decide⟩
  intro trace records
  unfold createGraph
  cases h1 : earliestRecord records with
  | none => simp [hasRelatedMainDocument, h1, Except.isOk, Except.toBool]
  | some root =>
    cases h2 : earliestDocument records with
    | none => simp [hasRelatedMainDocument, h1, h2, Except.isOk, Except.toBool]
    | some d =>
      by_cases h3 : d = root ∨ root.requestId ∈ d.redirects
      · simp [hasRelatedMainDocument, h1, h2, h3, Except.isOk, Except.toBool]
      · simp [hasRelatedMainDocument, h1, h2, h3, Except.isOk, Except.toBool]

end PageDependencyGraph

/-! # Graph metatheory: paths, the closure test, guarded insertion -/

/-- Nonempty directed path along dependency edges: `DepPath edges a b` says
`b` is reachable from `a` by following one or more edges. -/
inductive DepPath (edges : List (NodeId × NodeId)) : NodeId → NodeId → Prop
  | single {a b : NodeId} : (a, b) ∈ edges → DepPath edges a b
  | cons {a b c : NodeId} : (a, b) ∈ edges → DepPath edges b c → DepPath edges a c

theorem DepPath.head_edge {edges : List (NodeId × NodeId)} {a b : NodeId}
    (h : DepPath edges a b) : ∃ y, (a, y) ∈ edges := by
  cases h with
  | single h => exact ⟨_, h⟩
  | cons h _ => exact ⟨_, h⟩

theorem DepPath.push {edges : List (NodeId × NodeId)} {a b c : NodeId}
    (h : DepPath edges a b) (he : (b, c) ∈ edges) : DepPath edges a c := by
  induction h with
  | single h => exact .cons h (.single he)
  | cons h _ ih => exact .cons h (ih he)

theorem DepPath.mono {edges edges2 : List (NodeId × NodeId)} {a b : NodeId}
    (h : DepPath edges a b) (hsub : ∀ e ∈ edges, e ∈ edges2) : DepPath edges2 a b := by
  induction h with
  | single h => exact .single (hsub _ h)
  | cons h _ ih => exact .cons (hsub _ h) ih

/-- Soundness of the bounded closure: everything it reports is the start
node or reachable from it. -/
theorem depsClosure_sound (edges : List (NodeId × NodeId)) (start : NodeId) :
    ∀ fuel acc, (∀ y ∈ acc, y = start ∨ DepPath edges start y) →
      ∀ x ∈ depsClosure edges fuel acc, x = start ∨ DepPath edges start x := by
  intro fuel
  induction fuel with
  | zero => intro acc h x hx; exact h x hx
  | succ n ih =>
    intro acc h x hx
    rw [depsClosure] at hx
    rcases hf : ((edges.filter (fun e => decide (e.1 ∈ acc))).map (fun e => e.2)).filter
        (fun x => decide (x ∉ acc)) with _ | ⟨y, ys⟩
    · rw [hf] at hx; exact h x hx
    · rw [hf] at hx
      refine ih _ ?_ x hx
      intro z hz
      rcases List.mem_append.mp hz with hz | hz
      · exact h z hz
      · rw [← hf] at hz
        have hz2 := List.of_mem_filter hz
        have hz3 := List.mem_of_mem_filter hz
        rcases List.mem_map.mp hz3 with ⟨e, he, rfl⟩
        have he2 := List.of_mem_filter he
        have he3 := List.mem_of_mem_filter he
        have hsrc : e.1 ∈ acc := of_decide_eq_true he2
        rcases h e.1 hsrc with h1 | h1
        · right
          refine DepPath.single ?_
          have : (e.1, e.2) = e := rfl
          rw [h1] at this
          rw [← this] at he3
          exact he3
        · right
          refine h1.push ?_
          have : (e.1, e.2) = e := rfl
          rw [← this] at he3
          exact he3

/-- When there is no path from `a` to `b` (and they differ), the closure
test reports false. -/
theorem isDependentOn_eq_false (g : Graph) {a b : NodeId} (hne : b ≠ a)
    (h : ¬ DepPath g.edges a b) : g.isDependentOn a b = false := by
  rw [Graph.isDependentOn, decide_eq_false_iff_not]
  intro hmem
  rcases depsClosure_sound g.edges a _ [a] (by intro y hy; left; simpa using hy) b hmem with
    h1 | h1
  · exact hne h1
  · exact h h1

theorem Graph.addDependency_nodeIds (g : Graph) (a b : NodeId) :
    (g.addDependency a b).nodeIds = g.nodeIds := by
  unfold Graph.addDependency
  split
  · rfl
  split
  · rfl
  split
  · rfl
  · rfl

theorem Graph.mem_edges_addDependency (g : Graph) (a b : NodeId) {e : NodeId × NodeId}
    (he : e ∈ g.edges) : e ∈ (g.addDependency a b).edges := by
  unfold Graph.addDependency
  split
  · exact he
  split
  · exact he
  split
  · exact he
  · simp only [List.mem_append]; exact Or.inl he

theorem Graph.addDependency_mem_edges (g : Graph) (a b : NodeId) {e : NodeId × NodeId}
    (he : e ∈ (g.addDependency a b).edges) : e ∈ g.edges ∨ e = (a, b) := by
  unfold Graph.addDependency at he
  split at he
  · exact Or.inl he
  split at he
  · exact Or.inl he
  split at he
  · exact Or.inl he
  · rcases List.mem_append.mp he with h | h
    · exact Or.inl h
    · exact Or.inr (by simpa using h)

theorem Graph.addDependency_nodup (g : Graph) (a b : NodeId)
    (h : g.edges.Nodup) : (g.addDependency a b).edges.Nodup := by
  unfold Graph.addDependency
  split
  · exact h
  split
  · exact h
  split
  · exact h
  · rename_i h1 h2 h3
    simpa [List.nodup_append] using ⟨h, h2⟩

/-- Guarded insertion succeeds (the edge is present afterwards) whenever the
edge is not a self-edge and inserting it cannot close a cycle. -/
theorem Graph.addDependency_inserts (g : Graph) {a b : NodeId} (hne : a ≠ b)
    (hnp : ¬ DepPath g.edges b a) : (a, b) ∈ (g.addDependency a b).edges := by
  unfold Graph.addDependency
  split
  · exact absurd (by assumption) hne
  split
  · assumption
  split
  · rename_i hdep
    rw [isDependentOn_eq_false g hne hnp] at hdep
    exact absurd hdep (by simp)
  · simp

theorem Graph.mem_getDependencies {g : Graph} {a b : NodeId}
    (h : (a, b) ∈ g.edges) : b ∈ g.getDependencies a := by
  rw [Graph.getDependencies]
  refine List.mem_map.mpr ⟨(a, b), ?_, rfl⟩
  exact List.mem_filter.mpr ⟨h, by simp⟩

theorem Graph.mem_getDependencies_iff {g : Graph} {a b : NodeId} :
    b ∈ g.getDependencies a ↔ (a, b) ∈ g.edges := by
  constructor
  · intro h
    rw [Graph.getDependencies] at h
    rcases List.mem_map.mp h with ⟨e, he, rfl⟩
    have h1 := List.of_mem_filter he
    have h2 := List.mem_of_mem_filter he
    have : e.1 = a := of_decide_eq_true h1
    have he2 : (e.1, e.2) = e := rfl
    rw [← he2] at h2
    rw [this] at h2
    exact h2
  · exact Graph.mem_getDependencies

theorem Graph.mem_getDependents_iff {g : Graph} {a b : NodeId} :
    a ∈ g.getDependents b ↔ (a, b) ∈ g.edges := by
  constructor
  · intro h
    rw [Graph.getDependents] at h
    rcases List.mem_map.mp h with ⟨e, he, rfl⟩
    have h1 := List.of_mem_filter he
    have h2 := List.mem_of_mem_filter he
    have : e.2 = b := of_decide_eq_true h1
    have he2 : (e.1, e.2) = e := rfl
    rw [← he2] at h2
    rw [this] at h2
    exact h2
  · intro h
    rw [Graph.getDependents]
    refine List.mem_map.mpr ⟨(a, b), ?_, rfl⟩
    exact List.mem_filter.mpr ⟨h, by simp⟩

/-! # The time potential: every inserted edge points backwards in time -/

/-- Strict lexicographic order on (start time, node kind) potentials. -/
def PotLt (p q : ℤ × ℕ) : Prop := p.1 < q.1 ∨ (p.1 = q.1 ∧ p.2 < q.2)

instance (p q : ℤ × ℕ) : Decidable (PotLt p q) := by unfold PotLt; infer_instance

theorem PotLt.trans {p q r : ℤ × ℕ} (h1 : PotLt p q) (h2 : PotLt q r) : PotLt p r := by
  rcases h1 with h1 | ⟨h1, h1b⟩ <;> rcases h2 with h2 | ⟨h2, h2b⟩
  · exact Or.inl (h1.trans h2)
  · exact Or.inl (h2 ▸ h1)
  · exact Or.inl (h1 ▸ h2)
  · exact Or.inr ⟨h1.trans h2, h1b.trans h2b⟩

theorem PotLt.irrefl (p : ℤ × ℕ) : ¬ PotLt p p := by
  rintro (h | ⟨_, h⟩) <;> exact absurd h (by simp)

/-- The potential of a node: its start time (found through the request-id
index for network nodes, read off the id for CPU nodes) paired with a tag
placing a CPU node after a network node that starts at the same instant. -/
def potOf (records : List NetworkRecord) : NodeId → ℤ × ℕ
  | .net rid =>
    (match records.find? (fun c => decide (c.requestId = rid)) with
     | some c => c.startTime
     | none => 0, 0)
  | .cpu _ ts => ((ts : ℤ), 1)

theorem find?_requestId_self {records : List NetworkRecord}
    (hnodup : (records.map (fun r => r.requestId)).Nodup) {c : NetworkRecord}
    (hc : c ∈ records) :
    records.find? (fun x => decide (x.requestId = c.requestId)) = some c := by
  induction records with
  | nil => simp at hc
  | cons r rs ih =>
    rw [List.map_cons, List.nodup_cons] at hnodup
    rcases List.mem_cons.mp hc with rfl | hc
    · exact List.find?_cons_of_pos _ (by simp)
    · have hne : r.requestId ≠ c.requestId := by
        intro h
        exact hnodup.1 (h ▸ List.mem_map.mpr ⟨c, hc, rfl⟩)
      rw [List.find?_cons_of_neg _ (by simpa using hne)]
      exact ih hnodup.2 hc

theorem potOf_net {records : List NetworkRecord}
    (hnodup : (records.map (fun r => r.requestId)).Nodup) {c : NetworkRecord}
    (hc : c ∈ records) : potOf records (.net c.requestId) = (c.startTime, 0) := by
  rw [potOf, find?_requestId_self hnodup hc]

theorem potOf_cpu (records : List NetworkRecord) (c : CPUNode) :
    potOf records (PageDependencyGraph.cpuId c) = ((c.ts : ℤ), 1) := rfl

/-- Fold preservation helper: an invariant preserved by every step of a
left fold holds of the result. -/
theorem foldl_preserves {α β : Type _} (f : β → α → β) (P : β → Prop) :
    ∀ (l : List α) (b : β), P b → (∀ x ∈ l, ∀ b2, P b2 → P (f b2 x)) →
      P (l.foldl f b) := by
  intro l
  induction l with
  | nil => intro b hb _; exact hb
  | cons x xs ih =>
    intro b hb h
    exact ih _ (h x (by simp) b hb) (fun y hy b2 hb2 => h y (by simp [hy]) b2 hb2)

namespace PageDependencyGraph

/-- All vertex ids of a construction input, in creation order. -/
def allIds (records : List NetworkRecord) (cpuNodes : List CPUNode) : List NodeId :=
  records.map (fun r => .net r.requestId) ++ cpuNodes.map cpuId

/-- Justification for a non-root network-to-network edge: the dependent's
record carries an initiator url whose candidate list is a single record —
a different request that started strictly earlier. -/
def NetParentJustified (records : List NetworkRecord) (a c : ℕ) : Prop :=
  ∃ ra ∈ records, ra.requestId = a ∧ ∃ u ∈ getNetworkInitiators ra, ∃ rc,
    urlCandidates records u = [rc] ∧ rc.requestId = c ∧ c ≠ a ∧
    rc.startTime < ra.startTime

/-- Shape invariant of every edge the builder inserts: the root is never a
dependent; both endpoints are vertices; the dependency is the root or
strictly earlier in the time potential; and a network-to-network edge is
either the root fallback or a justified unambiguous initiator edge. -/
def GoodEdge (records : List NetworkRecord) (cpuNodes : List CPUNode)
    (root : NetworkRecord) (e : NodeId × NodeId) : Prop :=
  e.1 ≠ .net root.requestId ∧
  e.1 ∈ allIds records cpuNodes ∧ e.2 ∈ allIds records cpuNodes ∧
  (e.2 = .net root.requestId ∨ PotLt (potOf records e.2) (potOf records e.1)) ∧
  ∀ a c : ℕ, e = (.net a, .net c) → c = root.requestId ∨ NetParentJustified records a c

/-- Invariant carried through graph construction. -/
def GoodGraph (records : List NetworkRecord) (cpuNodes : List CPUNode)
    (root : NetworkRecord) (g : Graph) : Prop :=
  g.nodeIds = allIds records cpuNodes ∧ g.edges.Nodup ∧
  ∀ e ∈ g.edges, GoodEdge records cpuNodes root e

theorem good_path_pot {records : List NetworkRecord} {cpuNodes : List CPUNode}
    {root : NetworkRecord} {g : Graph} (hg : GoodGraph records cpuNodes root g)
    {a b : NodeId} (h : DepPath g.edges a b) :
    b = .net root.requestId ∨ PotLt (potOf records b) (potOf records a) := by
  induction h with
  | single he => exact (hg.2.2 _ he).2.2.2.1
  | cons he hp ih =>
    rename_i x y z
    rcases (hg.2.2 _ he).2.2.2.1 with h1 | h1
    · have h1b : y = NodeId.net root.requestId := h1
      rcases hp.head_edge with ⟨w, hw⟩
      rw [h1b] at hw
      exact absurd rfl (hg.2.2 _ hw).1
    · rcases ih with h2 | h2
      · exact Or.inl h2
      · exact Or.inr (h2.trans h1)

theorem no_path_from_root {records : List NetworkRecord} {cpuNodes : List CPUNode}
    {root : NetworkRecord} {g : Graph} (hg : GoodGraph records cpuNodes root g)
    (x : NodeId) : ¬ DepPath g.edges (.net root.requestId) x := by
  intro h
  rcases h.head_edge with ⟨y, hy⟩
  exact (hg.2.2 _ hy).1 rfl

/-- A graph is acyclic when no node has a nonempty path back to itself. -/
def Acyclic (g : Graph) : Prop := ∀ n, ¬ DepPath g.edges n n

theorem good_acyclic {records : List NetworkRecord} {cpuNodes : List CPUNode}
    {root : NetworkRecord} {g : Graph} (hg : GoodGraph records cpuNodes root g) :
    Acyclic g := by
  intro n h
  by_cases hr : n = .net root.requestId
  · subst hr
    exact no_path_from_root hg _ h
  · rcases good_path_pot hg h with h1 | h1
    · exact hr h1
    · exact PotLt.irrefl _ h1

theorem good_addDependency {records : List NetworkRecord} {cpuNodes : List CPUNode}
    {root : NetworkRecord} {g : Graph} (hg : GoodGraph records cpuNodes root g)
    {a b : NodeId} (he : GoodEdge records cpuNodes root (a, b)) :
    GoodGraph records cpuNodes root (g.addDependency a b) := by
  refine ⟨?_, Graph.addDependency_nodup _ _ _ hg.2.1, ?_⟩
  · rw [Graph.addDependency_nodeIds]; exact hg.1
  · intro e hme
    rcases Graph.addDependency_mem_edges _ _ _ hme with h | h
    · exact hg.2.2 _ h
    · rw [h]; exact he

theorem mem_allIds_net {records : List NetworkRecord} {cpuNodes : List CPUNode}
    {r : NetworkRecord} (hr : r ∈ records) :
    NodeId.net r.requestId ∈ allIds records cpuNodes :=
  List.mem_append.mpr (Or.inl (List.mem_map.mpr ⟨r, hr, rfl⟩))

theorem mem_allIds_cpu {records : List NetworkRecord} {cpuNodes : List CPUNode}
    {c : CPUNode} (hc : c ∈ cpuNodes) : cpuId c ∈ allIds records cpuNodes :=
  List.mem_append.mpr (Or.inr (List.mem_map.mpr ⟨c, hc, rfl⟩))

theorem goodEdge_to_root {records : List NetworkRecord} {cpuNodes : List CPUNode}
    {root : NetworkRecord} (hrootmem : root ∈ records)
    {r : NetworkRecord} (hr : r ∈ records) (hne : r.requestId ≠ root.requestId) :
    GoodEdge records cpuNodes root (.net r.requestId, .net root.requestId) := by
  refine ⟨by simpa using hne, mem_allIds_net hr, mem_allIds_net hrootmem, Or.inl rfl, ?_⟩
  intro a c h
  simp only [Prod.mk.injEq, NodeId.net.injEq] at h
  exact Or.inl h.2.symm

theorem goodEdge_cpu_to_root {records : List NetworkRecord} {cpuNodes : List CPUNode}
    {root : NetworkRecord} (hrootmem : root ∈ records)
    {c : CPUNode} (hc : c ∈ cpuNodes) :
    GoodEdge records cpuNodes root (cpuId c, .net root.requestId) := by
  refine ⟨by simp [cpuId], mem_allIds_cpu hc, mem_allIds_net hrootmem, Or.inl rfl, ?_⟩
  intro a c2 h
  simp [cpuId] at h

theorem goodEdge_initiator {records : List NetworkRecord} {cpuNodes : List CPUNode}
    {root : NetworkRecord}
    (hnodup : (records.map (fun x => x.requestId)).Nodup)
    {r c : NetworkRecord} (hr : r ∈ records) (hrne : r.requestId ≠ root.requestId)
    {u : String} (hu : u ∈ getNetworkInitiators r)
    (hcand : urlCandidates records u = [c])
    (hcne : c.requestId ≠ r.requestId) (hlt : c.startTime < r.startTime) :
    GoodEdge records cpuNodes root (.net r.requestId, .net c.requestId) := by
  have hcmem : c ∈ records := by
    have : c ∈ urlCandidates records u := by rw [hcand]; simp
    exact List.mem_of_mem_filter this
  refine ⟨by simpa using hrne, mem_allIds_net hr, mem_allIds_net hcmem, ?_, ?_⟩
  · right
    rw [potOf_net hnodup hcmem, potOf_net hnodup hr]
    exact Or.inl hlt
  · intro a c2 h
    simp only [Prod.mk.injEq, NodeId.net.injEq] at h
    right
    exact ⟨r, hr, h.1, u, hu, c, hcand, h.2, by rw [← h.1, ← h.2]; exact hcne, hlt⟩

theorem good_linkNetworkNode {records : List NetworkRecord} {cpuNodes : List CPUNode}
    {root : NetworkRecord} {g : Graph} {r : NetworkRecord}
    (hnodup : (records.map (fun x => x.requestId)).Nodup)
    (hrootmem : root ∈ records) (hr : r ∈ records)
    (hg : GoodGraph records cpuNodes root g) :
    GoodGraph records cpuNodes root (linkNetworkNode records root g r) := by
  rw [linkNetworkNode]
  split
  · exact hg
  · rename_i hne
    split
    · exact good_addDependency hg (goodEdge_to_root hrootmem hr hne)
    · rename_i u us hinits
      refine foldl_preserves _ _ _ _ hg ?_
      intro v hv g2 hg2
      refine good_addDependency hg2 ?_
      have hvmem : v ∈ getNetworkInitiators r := by rw [hinits]; exact hv
      rcases hcand : urlCandidates records v with _ | ⟨c, _ | ⟨c2, cs⟩⟩
      · simp only [initiatorParent, hcand]
        exact goodEdge_to_root hrootmem hr hne
      · simp only [initiatorParent, hcand]
        split
        · rename_i hcond
          exact goodEdge_initiator hnodup hr hne hvmem hcand hcond.1 hcond.2
        · exact goodEdge_to_root hrootmem hr hne
      · simp only [initiatorParent, hcand]
        exact goodEdge_to_root hrootmem hr hne

theorem good_linkNetworkNodes {records : List NetworkRecord} {cpuNodes : List CPUNode}
    {root : NetworkRecord} {g : Graph}
    (hnodup : (records.map (fun x => x.requestId)).Nodup)
    (hrootmem : root ∈ records)
    (hg : GoodGraph records cpuNodes root g) :
    GoodGraph records cpuNodes root (linkNetworkNodes records root g) := by
  rw [linkNetworkNodes]
  exact foldl_preserves _ _ _ _ hg
    (fun r hr g2 hg2 => good_linkNetworkNode hnodup hrootmem hr hg2)

/-- Invariant of the CPU-linking state: a good graph plus a timer table
whose installers are all CPU nodes of this construction. -/
def GoodState (records : List NetworkRecord) (cpuNodes : List CPUNode)
    (root : NetworkRecord) (st : LinkState) : Prop :=
  GoodGraph records cpuNodes root st.g ∧ ∀ p ∈ st.timers, p.2 ∈ cpuNodes

theorem good_addDependencyOnUrl {records : List NetworkRecord} {cpuNodes : List CPUNode}
    {root : NetworkRecord} {node : CPUNode} {g : Graph}
    (hnodup : (records.map (fun x => x.requestId)).Nodup)
    (hnode : node ∈ cpuNodes)
    (hg : GoodGraph records cpuNodes root g) (u : String) :
    GoodGraph records cpuNodes root (addDependencyOnUrl records node g u) := by
  rw [addDependencyOnUrl]
  split
  · exact hg
  · refine foldl_preserves _ _ _ _ hg ?_
    intro c hc g2 hg2
    split
    · rename_i hle
      refine good_addDependency hg2
        ⟨by simp [cpuId], mem_allIds_cpu hnode,
          mem_allIds_net (List.mem_of_mem_filter hc), ?_, ?_⟩
      · right
        rw [potOf_net hnodup (List.mem_of_mem_filter hc), potOf_cpu]
        rcases lt_or_eq_of_le hle with h | h
        · exact Or.inl h
        · exact Or.inr ⟨h, by norm_num⟩
      · intro a c2 h
        simp [cpuId] at h
    · exact hg2

theorem good_addDependentNetworkRequest {records : List NetworkRecord}
    {cpuNodes : List CPUNode} {root : NetworkRecord} {node : CPUNode} {g : Graph}
    (hnodup : (records.map (fun x => x.requestId)).Nodup)
    (hnode : node ∈ cpuNodes)
    (hg : GoodGraph records cpuNodes root g) (rid : ℕ) :
    GoodGraph records cpuNodes root (addDependentNetworkRequest records root node g rid) := by
  rw [addDependentNetworkRequest]
  split
  · rename_i c hfind
    split
    · rename_i hcond
      have hcmem : c ∈ records := List.mem_of_find?_eq_some hfind
      refine good_addDependency hg
        ⟨by simpa using hcond.2.2, mem_allIds_net hcmem, mem_allIds_cpu hnode, ?_, ?_⟩
      · right
        rw [potOf_net hnodup hcmem, potOf_cpu]
        exact Or.inl hcond.2.1
      · intro a c2 h
        simp [cpuId] at h
    · exact hg
  · exact hg

theorem good_processChildEvent {records : List NetworkRecord} {cpuNodes : List CPUNode}
    {root : NetworkRecord} {node : CPUNode} {st : LinkState}
    (hnodup : (records.map (fun x => x.requestId)).Nodup)
    (hdur : ∀ c ∈ cpuNodes, c.dur ≠ 0)
    (hnode : node ∈ cpuNodes)
    (hst : GoodState records cpuNodes root st) (evt : TraceEvent) :
    GoodState records cpuNodes root (processChildEvent records root node st evt) := by
  rw [processChildEvent]
  split
  · exact hst
  · rename_i d hd
    split
    · -- TimerInstall
      split
      · exact ⟨hst.1, by
          intro p hp
          rcases List.mem_cons.mp hp with rfl | hp
          · exact hnode
          · exact hst.2 p hp⟩
      · exact hst
    · split
      · -- TimerFire
        split
        · split
          · rename_i tId p hfind
            split
            · rename_i hle
              refine ⟨good_addDependency hst.1 ?_, hst.2⟩
              have hpmem : p.2 ∈ cpuNodes := hst.2 p (List.mem_of_find?_eq_some hfind)
              have hlt : p.2.ts < node.ts :=
                lt_of_lt_of_le (Nat.lt_add_of_pos_right (Nat.pos_of_ne_zero (hdur _ hpmem))) hle
              refine ⟨by simp [cpuId], mem_allIds_cpu hnode, mem_allIds_cpu hpmem, ?_, ?_⟩
              · right
                rw [potOf_cpu, potOf_cpu]
                refine Or.inl ?_
                show (p.2.ts : ℤ) < (node.ts : ℤ)
                exact_mod_cast hlt
              · intro a c2 h
                simp [cpuId] at h
            · exact hst
          · exact hst
        · exact hst
      · split
        · -- EvaluateScript / InvalidateLayout / ScheduleStyleRecalculation
          refine ⟨?_, hst.2⟩
          exact foldl_preserves _ _ _ _ hst.1
            (fun u hu g2 hg2 => good_addDependencyOnUrl hnodup hnode hg2 u)
        · split
          · -- XHRReadyStateChange
            split
            · refine ⟨?_, hst.2⟩
              exact foldl_preserves _ _ _ _ hst.1
                (fun u hu g2 hg2 => good_addDependencyOnUrl hnodup hnode hg2 u)
            · exact hst
          · split
            · -- FunctionCall / v8.compile
              split
              · exact ⟨good_addDependencyOnUrl hnodup hnode hst.1 _, hst.2⟩
              · exact hst
            · split
              · -- ResourceSendRequest
                split
                · exact ⟨good_addDependentNetworkRequest hnodup hnode hst.1 _, hst.2⟩
                · exact hst
              · exact hst

theorem good_linkCPUNode {records : List NetworkRecord} {cpuNodes : List CPUNode}
    {root : NetworkRecord} {node : CPUNode} {st : LinkState}
    (hnodup : (records.map (fun x => x.requestId)).Nodup)
    (hrootmem : root ∈ records)
    (hdur : ∀ c ∈ cpuNodes, c.dur ≠ 0)
    (hnode : node ∈ cpuNodes)
    (hst : GoodState records cpuNodes root st) :
    GoodState records cpuNodes root (linkCPUNode records root st node) := by
  rw [linkCPUNode]
  have hst2 : GoodState records cpuNodes root
      (node.childEvents.foldl (processChildEvent records root node) st) :=
    foldl_preserves _ _ _ _ hst
      (fun evt _ st2 hst2 => good_processChildEvent hnodup hdur hnode hst2 evt)
  split
  · exact ⟨good_addDependency hst2.1 (goodEdge_cpu_to_root hrootmem hnode), hst2.2⟩
  · exact hst2

theorem good_linkCPUNodes {records : List NetworkRecord} {cpuNodes : List CPUNode}
    {root : NetworkRecord} {g : Graph}
    (hnodup : (records.map (fun x => x.requestId)).Nodup)
    (hrootmem : root ∈ records)
    (hdur : ∀ c ∈ cpuNodes, c.dur ≠ 0)
    (hg : GoodGraph records cpuNodes root g) :
    GoodGraph records cpuNodes root (linkCPUNodes records root g cpuNodes) := by
  rw [linkCPUNodes]
  have : GoodState records cpuNodes root
      (cpuNodes.foldl (linkCPUNode records root) { g := g, timers := [] }) :=
    foldl_preserves _ _ _ _ ⟨hg, by simp⟩
      (fun node hnode st hst => good_linkCPUNode hnodup hrootmem hdur hnode hst)
  exact this.1

theorem earliestRecord_mem : ∀ {records : List NetworkRecord} {root : NetworkRecord},
    earliestRecord records = some root → root ∈ records := by
  have aux : ∀ (l : List NetworkRecord) (acc : Option NetworkRecord) (y : NetworkRecord),
      l.foldl earlierOf acc = some y → acc = some y ∨ y ∈ l := by
    intro l
    induction l with
    | nil => intro acc y h; exact Or.inl h
    | cons r rs ih =>
      intro acc y h
      rcases ih (earlierOf acc r) y h with h2 | h2
      · rcases acc with _ | m
        · simp only [earlierOf] at h2
          exact Or.inr (by simp at h2; simp [h2])
        · simp only [earlierOf] at h2
          split at h2
          · exact Or.inl h2
          · exact Or.inr (by simp at h2; simp [h2])
      · exact Or.inr (List.mem_cons_of_mem _ h2)
  intro records root h
  rcases aux records none root h with h2 | h2
  · exact absurd h2 (by simp)
  · exact h2

/-! ## Every non-root node keeps at least one dependency -/

theorem addDependency_root_inserts {records : List NetworkRecord} {cpuNodes : List CPUNode}
    {root : NetworkRecord} {g : Graph} (hg : GoodGraph records cpuNodes root g)
    {a : NodeId} (ha : a ≠ .net root.requestId) :
    (a, .net root.requestId) ∈ (g.addDependency a (.net root.requestId)).edges :=
  g.addDependency_inserts ha (no_path_from_root hg a)

theorem addDependency_earlier_inserts {records : List NetworkRecord}
    {cpuNodes : List CPUNode} {root : NetworkRecord} {g : Graph}
    (hg : GoodGraph records cpuNodes root g)
    (hnodup : (records.map (fun x => x.requestId)).Nodup)
    {r c : NetworkRecord} (hr : r ∈ records) (hc : c ∈ records)
    (hrne : r.requestId ≠ root.requestId)
    (hne : c.requestId ≠ r.requestId) (hlt : c.startTime < r.startTime) :
    (.net r.requestId, .net c.requestId) ∈
      (g.addDependency (.net r.requestId) (.net c.requestId)).edges := by
  refine g.addDependency_inserts (by simpa using fun h => hne h.symm) ?_
  intro hpath
  rcases good_path_pot hg hpath with h1 | h1
  · exact hrne (by simpa using h1)
  · rw [potOf_net hnodup hr, potOf_net hnodup hc] at h1
    rcases h1 with h1 | ⟨h1, h1b⟩
    · exact absurd (h1.trans hlt) (by simp)
    · exact absurd h1b (by simp)

theorem getDependencies_ne_nil {g : Graph} {a : NodeId} (h : ∃ b, (a, b) ∈ g.edges) :
    g.getDependencies a ≠ [] := by
  rcases h with ⟨b, hb⟩
  intro hemp
  have := Graph.mem_getDependencies hb
  rw [hemp] at this
  simp at this

theorem linkNetworkNode_edge_exists {records : List NetworkRecord}
    {cpuNodes : List CPUNode} {root : NetworkRecord} {g : Graph} {r : NetworkRecord}
    (hnodup : (records.map (fun x => x.requestId)).Nodup)
    (hr : r ∈ records) (hrne : r.requestId ≠ root.requestId)
    (hg : GoodGraph records cpuNodes root g) :
    ∃ b, (.net r.requestId, b) ∈ (linkNetworkNode records root g r).edges := by
  rw [linkNetworkNode, if_neg hrne]
  split
  · exact ⟨_, addDependency_root_inserts hg (by simpa using hrne)⟩
  · rename_i u us hinits
    have h1 : ∃ b, (.net r.requestId, b) ∈
        (g.addDependency (.net r.requestId) (initiatorParent records root r u)).edges := by
      rcases hcand : urlCandidates records u with _ | ⟨c, _ | ⟨c2, cs⟩⟩
      · simp only [initiatorParent, hcand]
        exact ⟨_, addDependency_root_inserts hg (by simpa using hrne)⟩
      · simp only [initiatorParent, hcand]
        split
        · rename_i hcond
          have hcmem : c ∈ records := by
            have : c ∈ urlCandidates records u := by rw [hcand]; simp
            exact List.mem_of_mem_filter this
          exact ⟨_, addDependency_earlier_inserts hg hnodup hr hcmem hrne hcond.1 hcond.2⟩
        · exact ⟨_, addDependency_root_inserts hg (by simpa using hrne)⟩
      · simp only [initiatorParent, hcand]
        exact ⟨_, addDependency_root_inserts hg (by simpa using hrne)⟩
    rw [List.foldl_cons]
    rcases h1 with ⟨b, hb⟩
    exact ⟨b, foldl_preserves _ (fun g2 : Graph => (NodeId.net r.requestId, b) ∈ g2.edges) us _ hb
      (fun v hv g2 hg2 => Graph.mem_edges_addDependency _ _ _ hg2)⟩

/-! ## Edge monotonicity through every linking stage -/

theorem edges_mono_addDependencyOnUrl {records : List NetworkRecord} {node : CPUNode}
    {g : Graph} (u : String) {e : NodeId × NodeId} (he : e ∈ g.edges) :
    e ∈ (addDependencyOnUrl records node g u).edges := by
  rw [addDependencyOnUrl]
  split
  · exact he
  · refine foldl_preserves _ (fun g2 : Graph => e ∈ g2.edges) _ _ he ?_
    intro c hc g2 hg2
    split
    · exact Graph.mem_edges_addDependency _ _ _ hg2
    · exact hg2

theorem edges_mono_addDependentNetworkRequest {records : List NetworkRecord}
    {root : NetworkRecord} {node : CPUNode} {g : Graph} (rid : ℕ)
    {e : NodeId × NodeId} (he : e ∈ g.edges) :
    e ∈ (addDependentNetworkRequest records root node g rid).edges := by
  rw [addDependentNetworkRequest]
  split
  · split
    · exact Graph.mem_edges_addDependency _ _ _ he
    · exact he
  · exact he

theorem edges_mono_processChildEvent {records : List NetworkRecord}
    {root : NetworkRecord} {node : CPUNode} {st : LinkState} (evt : TraceEvent)
    {e : NodeId × NodeId} (he : e ∈ st.g.edges) :
    e ∈ (processChildEvent records root node st evt).g.edges := by
  rw [processChildEvent]
  split
  · exact he
  · split
    · split
      · exact he
      · exact he
    · split
      · split
        · split
          · split
            · exact Graph.mem_edges_addDependency _ _ _ he
            · exact he
          · exact he
        · exact he
      · split
        · exact foldl_preserves _ (fun g2 : Graph => e ∈ g2.edges) _ _ he
            (fun u hu g2 hg2 => edges_mono_addDependencyOnUrl u hg2)
        · split
          · split
            · exact foldl_preserves _ (fun g2 : Graph => e ∈ g2.edges) _ _ he
                (fun u hu g2 hg2 => edges_mono_addDependencyOnUrl u hg2)
            · exact he
          · split
            · split
              · exact edges_mono_addDependencyOnUrl _ he
              · exact he
            · split
              · split
                · exact edges_mono_addDependentNetworkRequest _ he
                · exact he
              · exact he

theorem edges_mono_childEvents {records : List NetworkRecord} {root : NetworkRecord}
    {node : CPUNode} {st : LinkState} (l : List TraceEvent)
    {e : NodeId × NodeId} (he : e ∈ st.g.edges) :
    e ∈ (l.foldl (processChildEvent records root node) st).g.edges :=
  foldl_preserves _ (fun st2 : LinkState => e ∈ st2.g.edges) l _ he
    (fun evt _ _ hst3 => edges_mono_processChildEvent evt hst3)

theorem edges_mono_linkCPUNode {records : List NetworkRecord} {root : NetworkRecord}
    {node : CPUNode} {st : LinkState}
    {e : NodeId × NodeId} (he : e ∈ st.g.edges) :
    e ∈ (linkCPUNode records root st node).g.edges := by
  rw [linkCPUNode]
  split
  · exact Graph.mem_edges_addDependency _ _ _ (edges_mono_childEvents _ he)
  · exact edges_mono_childEvents _ he

theorem edges_mono_linkNetworkNode {records : List NetworkRecord} {root : NetworkRecord}
    {g : Graph} (r : NetworkRecord) {e : NodeId × NodeId} (he : e ∈ g.edges) :
    e ∈ (linkNetworkNode records root g r).edges := by
  rw [linkNetworkNode]
  split
  · exact he
  · split
    · exact Graph.mem_edges_addDependency _ _ _ he
    · exact foldl_preserves _ (fun g2 : Graph => e ∈ g2.edges) _ _ he
        (fun v hv g2 hg2 => Graph.mem_edges_addDependency _ _ _ hg2)

/-- Every non-root network record keeps an outgoing dependency edge in the
graph linkNetworkNodes produces. -/
theorem linkNetworkNodes_edge_exists {records : List NetworkRecord}
    {cpuNodes : List CPUNode} {root : NetworkRecord} {g : Graph}
    (hnodup : (records.map (fun x => x.requestId)).Nodup)
    (hrootmem : root ∈ records)
    (hg : GoodGraph records cpuNodes root g)
    {r : NetworkRecord} (hr : r ∈ records) (hrne : r.requestId ≠ root.requestId) :
    ∃ b, (.net r.requestId, b) ∈ (linkNetworkNodes records root g).edges := by
  rcases List.append_of_mem hr with ⟨s, t, hst⟩
  rw [linkNetworkNodes]
  nth_rewrite 2 [hst]
  rw [List.foldl_append, List.foldl_cons]
  have hgs : GoodGraph records cpuNodes root (s.foldl (linkNetworkNode records root) g) := by
    refine foldl_preserves _ _ _ _ hg ?_
    intro x hx g2 hg2
    refine good_linkNetworkNode hnodup hrootmem ?_ hg2
    rw [hst]
    exact List.mem_append.mpr (Or.inl hx)
  rcases linkNetworkNode_edge_exists hnodup hr hrne hgs with ⟨b, hb⟩
  exact ⟨b, foldl_preserves _ (fun g2 : Graph => (NodeId.net r.requestId, b) ∈ g2.edges) t _ hb
    (fun x hx g2 hg2 => edges_mono_linkNetworkNode x hg2)⟩

/-- Every CPU node keeps an outgoing dependency edge in the graph
linkCPUNodes produces. -/
theorem linkCPUNodes_edge_exists {records : List NetworkRecord}
    {cpuNodes : List CPUNode} {root : NetworkRecord} {g : Graph}
    (hnodup : (records.map (fun x => x.requestId)).Nodup)
    (hrootmem : root ∈ records)
    (hdur : ∀ c ∈ cpuNodes, c.dur ≠ 0)
    (hg : GoodGraph records cpuNodes root g)
    {node : CPUNode} (hnode : node ∈ cpuNodes) :
    ∃ b, (cpuId node, b) ∈ (linkCPUNodes records root g cpuNodes).edges := by
  rcases List.append_of_mem hnode with ⟨s, t, hst⟩
  rw [linkCPUNodes, hst, List.foldl_append, List.foldl_cons]
  have hsts : GoodState records cpuNodes root
      (s.foldl (linkCPUNode records root) { g := g, timers := [] }) := by
    refine foldl_preserves _ _ _ _ ⟨hg, by simp⟩ ?_
    intro x hx st hstx
    refine good_linkCPUNode hnodup hrootmem hdur ?_ hstx
    rw [hst]
    exact List.mem_append.mpr (Or.inl hx)
  have h1 : ∃ b, (cpuId node, b) ∈
      (linkCPUNode records root (s.foldl (linkCPUNode records root)
        { g := g, timers := [] }) node).g.edges := by
    have hst2 : GoodState records cpuNodes root
        (node.childEvents.foldl (processChildEvent records root node)
          (s.foldl (linkCPUNode records root) { g := g, timers := [] })) :=
      foldl_preserves _ _ _ _ hsts
        (fun evt _ st2 hst2 => good_processChildEvent hnodup hdur hnode hst2 evt)
    rw [linkCPUNode]
    split
    · exact ⟨_, addDependency_root_inserts hst2.1 (by simp [cpuId])⟩
    · rename_i hne
      have : ∃ b, b ∈ (node.childEvents.foldl (processChildEvent records root node)
          (s.foldl (linkCPUNode records root) { g := g, timers := [] })).g.getDependencies
            (cpuId node) := by
        rcases List.exists_mem_of_ne_nil _ hne with ⟨b, hb⟩
        exact ⟨b, hb⟩
      rcases this with ⟨b, hb⟩
      exact ⟨b, Graph.mem_getDependencies_iff.mp hb⟩
  rcases h1 with ⟨b, hb⟩
  exact ⟨b, foldl_preserves _ (fun st2 : LinkState => (cpuId node, b) ∈ st2.g.edges) t _ hb
    (fun x hx st2 hst2 => edges_mono_linkCPUNode hst2)⟩

/-! ## Reachability of the root from every node -/

theorem length_filter_lt_length_filter {α : Type _} :
    ∀ (l : List α) (p q : α → Bool),
      (∀ x ∈ l, p x = true → q x = true) → ∀ {x : α}, x ∈ l →
      q x = true → p x = false →
      (l.filter p).length < (l.filter q).length := by
  intro l
  induction l with
  | nil => intro p q hpq x hx; simp at hx
  | cons y ys ih =>
    intro p q hpq x hx hqx hpx
    rcases List.mem_cons.mp hx with rfl | hx2
    · rw [List.filter_cons_of_neg (by simp [hpx]), List.filter_cons_of_pos hqx]
      refine Nat.lt_succ_of_le ?_
      rw [← List.countP_eq_length_filter, ← List.countP_eq_length_filter]
      exact List.countP_mono_left (fun a ha hp => hpq a (List.mem_cons_of_mem _ ha) hp)
    · have hpq2 : ∀ a ∈ ys, p a = true → q a = true :=
        fun a ha hp => hpq a (List.mem_cons_of_mem _ ha) hp
      cases hpy : p y with
      | true =>
        rw [List.filter_cons_of_pos hpy, List.filter_cons_of_pos (hpq y (by simp) hpy)]
        exact Nat.succ_lt_succ (ih p q hpq2 hx2 hqx hpx)
      | false =>
        rw [List.filter_cons_of_neg (by simp [hpy])]
        cases hqy : q y with
        | true =>
          rw [List.filter_cons_of_pos hqy]
          exact Nat.lt_succ_of_lt (ih p q hpq2 hx2 hqx hpx)
        | false =>
          rw [List.filter_cons_of_neg (by simp [hqy])]
          exact ih p q hpq2 hx2 hqx hpx

/-- In a good graph where every non-root node has an outgoing dependency
edge, every node has a dependency path to the root (or is the root). -/
theorem good_reach_root {records : List NetworkRecord} {cpuNodes : List CPUNode}
    {root : NetworkRecord} {g : Graph} (hg : GoodGraph records cpuNodes root g)
    (hdeps : ∀ n ∈ g.nodeIds, n ≠ .net root.requestId → ∃ b, (n, b) ∈ g.edges) :
    ∀ n ∈ g.nodeIds, n = .net root.requestId ∨
      DepPath g.edges n (.net root.requestId) := by
  suffices h : ∀ (k : ℕ) (n : NodeId), n ∈ g.nodeIds →
      (g.nodeIds.filter (fun x =>
        decide (PotLt (potOf records x) (potOf records n)))).length ≤ k →
      n = .net root.requestId ∨ DepPath g.edges n (.net root.requestId) by
    exact fun n hn => h _ n hn le_rfl
  intro k
  induction k with
  | zero =>
    intro n hn hrank
    by_cases hroot : n = .net root.requestId
    · exact Or.inl hroot
    · rcases hdeps n hn hroot with ⟨b, hb⟩
      rcases (hg.2.2 _ hb).2.2.2.1 with h1 | h1
      · exact Or.inr (DepPath.single (show (n, .net root.requestId) ∈ g.edges by
          have h1b : b = NodeId.net root.requestId := h1
          rw [← h1b]; exact hb))
      · exfalso
        have hbmem : b ∈ g.nodeIds := by
          have := (hg.2.2 _ hb).2.2.1
          rw [hg.1]; exact this
        have : b ∈ g.nodeIds.filter (fun x =>
            decide (PotLt (potOf records x) (potOf records n))) :=
          List.mem_filter.mpr ⟨hbmem, by simpa using h1⟩
        have hlen : 0 < (g.nodeIds.filter (fun x =>
            decide (PotLt (potOf records x) (potOf records n)))).length :=
          List.length_pos.mpr (by intro hemp; rw [hemp] at this; simp at this)
        omega
  | succ k ih =>
    intro n hn hrank
    by_cases hroot : n = .net root.requestId
    · exact Or.inl hroot
    · rcases hdeps n hn hroot with ⟨b, hb⟩
      by_cases hbroot : b = .net root.requestId
      · exact Or.inr (DepPath.single (hbroot ▸ hb))
      · rcases (hg.2.2 _ hb).2.2.2.1 with h1 | h1
        · exact absurd h1 hbroot
        · have hbmem : b ∈ g.nodeIds := by
            have := (hg.2.2 _ hb).2.2.1
            rw [hg.1]; exact this
          have hlt : (g.nodeIds.filter (fun x =>
                decide (PotLt (potOf records x) (potOf records b)))).length <
              (g.nodeIds.filter (fun x =>
                decide (PotLt (potOf records x) (potOf records n)))).length := by
            refine length_filter_lt_length_filter g.nodeIds _ _ ?_ hbmem
              (by simpa using h1) (by simp [PotLt.irrefl])
            intro a ha hp
            simp only [decide_eq_true_eq] at hp ⊢
            exact hp.trans h1
          rcases ih b hbmem (by omega) with h2 | h2
          · exact absurd h2 hbroot
          · exact Or.inr (DepPath.cons hb h2)

/-- The graph returned by createGraph satisfies the construction
invariant, with the earliest record as its root, and decomposes into the
two linking stages applied to the initial vertex set. -/
theorem createGraph_good {trace : List TraceEvent} {records : List NetworkRecord}
    {res : GraphResult}
    (hnodup : (records.map (fun r => r.requestId)).Nodup)
    (hok : createGraph trace records = .ok res) :
    ∃ root ∈ records, earliestRecord records = some root ∧
      res.root = .net root.requestId ∧
      res.graph = linkCPUNodes records root
        (linkNetworkNodes records root (initialGraph records (getCPUNodes trace)))
        (getCPUNodes trace) ∧
      GoodGraph records (getCPUNodes trace) root res.graph := by
  unfold createGraph at hok
  cases h1 : earliestRecord records with
  | none =>
    cases h2 : earliestDocument records <;> simp [h1, h2] at hok
  | some root =>
    cases h2 : earliestDocument records with
    | none => simp [h1, h2] at hok
    | some d =>
      simp only [h1, h2] at hok
      split at hok
      · have hrootmem := earliestRecord_mem h1
        have hg0 : GoodGraph records (getCPUNodes trace) root
            (initialGraph records (getCPUNodes trace)) :=
          ⟨rfl, List.nodup_nil, by intro e he; simp [initialGraph] at he⟩
        have hg1 := good_linkNetworkNodes hnodup hrootmem hg0
        have hg2 := good_linkCPUNodes hnodup hrootmem
          (getCPUNodes_dur_ne_zero trace) hg1
        have hres := Except.ok.inj hok
        refine ⟨root, hrootmem, rfl, ?_, ?_, ?_⟩
        · rw [← hres]
        · rw [← hres]
        · rw [← hres]
          exact hg2
      · exact absurd hok (by simp)


end PageDependencyGraph

/-! # Traversal metatheory: the breadth-first walk visits exactly the
nodes reachable from the root, each at most once -/

/-- Reachability from the root following dependent edges (the direction
the traversal walks). -/
inductive DepReach (edges : List (NodeId × NodeId)) (root : NodeId) : NodeId → Prop
  | refl : DepReach edges root root
  | step {x y : NodeId} : DepReach edges root x → (y, x) ∈ edges → DepReach edges root y

/-- A dependency path to the root, read backwards, is dependent-direction
reachability from the root. -/
theorem DepPath.toReach {edges : List (NodeId × NodeId)} {n root : NodeId}
    (h : DepPath edges n root) : DepReach edges root n := by
  induction h with
  | single he => exact DepReach.refl.step he
  | cons he _ ih => exact ih.step he

/-- The deduplicated list of edge sources. -/
def edgeSources (g : Graph) : List NodeId := (g.edges.map (fun e => e.1)).dedup

theorem getDependents_nodup (g : Graph) (hg : g.edges.Nodup) (n : NodeId) :
    (g.getDependents n).Nodup := by
  rw [Graph.getDependents]
  refine List.Nodup.map_on ?_ (hg.filter _)
  intro x hx y hy hxy
  have hx2 : x.2 = n := by simpa using (List.mem_filter.mp hx).2
  have hy2 : y.2 = n := by simpa using (List.mem_filter.mp hy).2
  cases x; cases y
  simp_all

theorem mem_edgeSources {g : Graph} {x : NodeId}
    (h : ∃ b, (x, b) ∈ g.edges) : x ∈ edgeSources g := by
  rcases h with ⟨b, hb⟩
  rw [edgeSources, List.mem_dedup]
  exact List.mem_map.mpr ⟨(x, b), hb, rfl⟩

theorem nodup_length_le_of_subset {l S : List NodeId} (hl : l.Nodup)
    (hsub : ∀ x ∈ l, x ∈ S) : l.length ≤ S.length := by
  calc l.length = l.toFinset.card := (List.toFinset_card_of_nodup hl).symm
    _ ≤ S.toFinset.card := Finset.card_le_card
        (fun x hx => List.mem_toFinset.mpr (hsub x (List.mem_toFinset.mp hx)))
    _ ≤ S.length := List.toFinset_card_le S

theorem countP_split {α : Type _} (l : List α) (p q : α → Bool) :
    l.countP p = l.countP (fun x => p x && q x) + l.countP (fun x => p x && !q x) := by
  induction l with
  | nil => simp
  | cons y ys ih =>
    rw [List.countP_cons, List.countP_cons, List.countP_cons]
    cases hp : p y <;> cases hq : q y <;> simp [hp, hq] <;> omega

/-- Marking the fresh nodes visited shrinks the unvisited-source count by
at least the number of fresh nodes. -/
theorem filter_notmem_append_length {l fresh visited : List NodeId}
    (hfresh : fresh.Nodup) (hsub : ∀ x ∈ fresh, x ∈ l)
    (hnv : ∀ x ∈ fresh, x ∉ visited) :
    (l.filter (fun x => decide (x ∉ visited ++ fresh))).length + fresh.length ≤
      (l.filter (fun x => decide (x ∉ visited))).length := by
  rw [← List.countP_eq_length_filter, ← List.countP_eq_length_filter]
  rw [countP_split l (fun x => decide (x ∉ visited)) (fun x => decide (x ∈ fresh))]
  have h1 : l.countP (fun x => decide (x ∉ visited) && !decide (x ∈ fresh)) =
      l.countP (fun x => decide (x ∉ visited ++ fresh)) := by
    refine List.countP_congr ?_
    intro x hx
    by_cases ha : x ∈ visited <;> by_cases hb : x ∈ fresh <;>
      simp [ha, hb, List.mem_append]
  have h2 : fresh.length ≤
      l.countP (fun x => decide (x ∉ visited) && decide (x ∈ fresh)) := by
    rw [List.countP_eq_length_filter]
    refine nodup_length_le_of_subset hfresh ?_
    intro x hx
    exact List.mem_filter.mpr ⟨hsub x hx, by simp [hx, hnv x hx]⟩
  omega

/-- Master lemma for the breadth-first working loop: with sufficient fuel
and a consistent state, the produced visit order has no duplicates,
contains every visited node, and is closed under dependent edges for the
nodes it visits beyond the incoming prefix. -/
theorem bfs_master (g : Graph) (hend : g.edges.Nodup) :
    ∀ (fuel : ℕ) (queue visited out : List NodeId),
      (out ++ queue).Nodup →
      (∀ x ∈ out, x ∈ visited) →
      (∀ x ∈ queue, x ∈ visited) →
      (∀ x ∈ visited, x ∈ out ++ queue) →
      queue.length +
        2 * ((edgeSources g).filter (fun x => decide (x ∉ visited))).length ≤ fuel →
      (g.bfs fuel queue visited out).Nodup ∧
      (∀ x ∈ visited, x ∈ g.bfs fuel queue visited out) ∧
      (∀ x ∈ g.bfs fuel queue visited out, x ∉ out →
        ∀ d ∈ g.getDependents x, d ∈ g.bfs fuel queue visited out) := by
  intro fuel
  induction fuel with
  | zero =>
    intro queue visited out h1 h2 h3 h4 h5
    have hq : queue = [] := List.length_eq_zero.mp (by omega)
    subst hq
    rw [Graph.bfs]
    refine ⟨by simpa using h1, ?_, ?_⟩
    · intro x hx
      simpa using h4 x hx
    · intro x hx hxout
      exact absurd hx hxout
  | succ fuel ih =>
    intro queue visited out h1 h2 h3 h4 h5
    cases queue with
    | nil =>
      rw [Graph.bfs]
      refine ⟨by simpa using h1, ?_, ?_⟩
      · intro x hx
        simpa using h4 x hx
      · intro x hx hxout
        exact absurd hx hxout
    | cons n rest =>
      rw [Graph.bfs]
      have hfreshnodup : ((g.getDependents n).filter
          (fun d => decide (d ∉ visited))).Nodup :=
        (getDependents_nodup g hend n).filter _
      have hfreshnv : ∀ x ∈ (g.getDependents n).filter
          (fun d => decide (d ∉ visited)), x ∉ visited :=
        fun x hx => by simpa using (List.mem_filter.mp hx).2
      have hfreshsrc : ∀ x ∈ (g.getDependents n).filter
          (fun d => decide (d ∉ visited)), x ∈ edgeSources g := by
        intro x hx
        refine mem_edgeSources ⟨n, ?_⟩
        exact Graph.mem_getDependents_iff.mp (List.mem_of_mem_filter hx)
      have H1 : ((out ++ [n]) ++ (rest ++ (g.getDependents n).filter
          (fun d => decide (d ∉ visited)))).Nodup := by
        have heq : (out ++ [n]) ++ (rest ++ (g.getDependents n).filter
            (fun d => decide (d ∉ visited))) =
            (out ++ n :: rest) ++ (g.getDependents n).filter
              (fun d => decide (d ∉ visited)) := by
          simp
        rw [heq, List.nodup_append]
        refine ⟨h1, hfreshnodup, ?_⟩
        intro a ha hafresh
        exact hfreshnv a hafresh (by
          rcases List.mem_append.mp ha with ha | ha
          · exact h2 a ha
          · exact h3 a ha)
      have H2 : ∀ x ∈ out ++ [n], x ∈ visited ++ (g.getDependents n).filter
          (fun d => decide (d ∉ visited)) := by
        intro x hx
        rcases List.mem_append.mp hx with hx | hx
        · exact List.mem_append.mpr (Or.inl (h2 x hx))
        · simp only [List.mem_singleton] at hx
          exact List.mem_append.mpr (Or.inl (hx ▸ h3 n (by simp)))
      have H3 : ∀ x ∈ rest ++ (g.getDependents n).filter
          (fun d => decide (d ∉ visited)), x ∈ visited ++ (g.getDependents n).filter
          (fun d => decide (d ∉ visited)) := by
        intro x hx
        rcases List.mem_append.mp hx with hx | hx
        · exact List.mem_append.mpr (Or.inl (h3 x (by simp [hx])))
        · exact List.mem_append.mpr (Or.inr hx)
      have H4 : ∀ x ∈ visited ++ (g.getDependents n).filter
          (fun d => decide (d ∉ visited)), x ∈ (out ++ [n]) ++ (rest ++
            (g.getDependents n).filter (fun d => decide (d ∉ visited))) := by
        intro x hx
        rcases List.mem_append.mp hx with hx | hx
        · have := h4 x hx
          simp only [List.mem_append, List.mem_cons, List.mem_singleton] at this ⊢
          tauto
        · simp only [List.mem_append, List.mem_singleton]
          tauto
      have H5 : (rest ++ (g.getDependents n).filter
            (fun d => decide (d ∉ visited))).length +
          2 * ((edgeSources g).filter (fun x => decide (x ∉ visited ++
            (g.getDependents n).filter (fun d => decide (d ∉ visited))))).length ≤
          fuel := by
        have hdec := filter_notmem_append_length hfreshnodup hfreshsrc hfreshnv
        rw [List.length_append]
        simp only [List.length_cons] at h5
        omega
      obtain ⟨c1, c2, c3⟩ := ih _ _ _ H1 H2 H3 H4 H5
      refine ⟨c1, ?_, ?_⟩
      · intro x hx
        exact c2 x (List.mem_append.mpr (Or.inl hx))
      · intro x hx hxout
        by_cases hxn : x = n
        · subst hxn
          intro d hd
          by_cases hdv : d ∈ visited
          · exact c2 d (List.mem_append.mpr (Or.inl hdv))
          · refine c2 d (List.mem_append.mpr (Or.inr ?_))
            exact List.mem_filter.mpr ⟨hd, by simpa using hdv⟩
        · refine c3 x hx ?_
          simp only [List.mem_append, List.mem_singleton]
          rintro (h | h)
          · exact hxout h
          · exact hxn h

/-- The traversal of a graph whose edges are duplicate-free and whose edge
sources are all vertices: the visit order has no duplicates and contains
everything reachable from the root along dependent edges. -/
theorem traverse_spec (g : Graph) (root : NodeId) (hend : g.edges.Nodup)
    (hsrc : ∀ e ∈ g.edges, e.1 ∈ g.nodeIds) :
    (g.traverse root).Nodup ∧
    ∀ x, DepReach g.edges root x → x ∈ g.traverse root := by
  have hsrclen : ((edgeSources g).filter
      (fun x => decide (x ∉ ([root] : List NodeId)))).length ≤ g.nodeIds.length := by
    refine le_trans (List.filter_sublist _).length_le ?_
    refine nodup_length_le_of_subset (List.nodup_dedup _) ?_
    intro x hx
    rw [edgeSources, List.mem_dedup] at hx
    rcases List.mem_map.mp hx with ⟨e, he, rfl⟩
    exact hsrc e he
  obtain ⟨c1, c2, c3⟩ := bfs_master g hend (2 * g.nodeIds.length + 2) [root] [root] []
    (by simp) (by simp) (by simp) (by simp)
    (by simp only [List.length_singleton]; omega)
  refine ⟨c1, ?_⟩
  intro x hx
  induction hx with
  | refl => exact c2 root (by simp)
  | step hr he ih =>
    rename_i a b
    refine c3 a ih (by simp) b ?_
    exact Graph.mem_getDependents_iff.mpr he

namespace PageDependencyGraph

/-- Every non-root vertex of a constructed graph has at least one
outgoing dependency edge (rule 3 and the CPU fallback: nothing is left
orphaned). -/
theorem createGraph_deps_exist {trace : List TraceEvent} {records : List NetworkRecord}
    {res : GraphResult} {root : NetworkRecord}
    (hnodup : (records.map (fun r => r.requestId)).Nodup)
    (hrootmem : root ∈ records)
    (hgeq : res.graph = linkCPUNodes records root
      (linkNetworkNodes records root (initialGraph records (getCPUNodes trace)))
      (getCPUNodes trace))
    (hg : GoodGraph records (getCPUNodes trace) root res.graph) :
    ∀ n ∈ res.graph.nodeIds, n ≠ .net root.requestId →
      ∃ b, (n, b) ∈ res.graph.edges := by
  intro n hn hne
  have hg0 : GoodGraph records (getCPUNodes trace) root
      (initialGraph records (getCPUNodes trace)) :=
    ⟨rfl, List.nodup_nil, by intro e he; simp [initialGraph] at he⟩
  have hg1 := good_linkNetworkNodes hnodup hrootmem hg0
  rw [hg.1] at hn
  rcases List.mem_append.mp hn with hn | hn
  · rcases List.mem_map.mp hn with ⟨r, hr, rfl⟩
    have hrne : r.requestId ≠ root.requestId := by simpa using hne
    rcases linkNetworkNodes_edge_exists hnodup hrootmem hg0 hr hrne with ⟨b, hb⟩
    refine ⟨b, ?_⟩
    rw [hgeq, linkCPUNodes]
    exact foldl_preserves _ (fun st : LinkState =>
        (NodeId.net r.requestId, b) ∈ st.g.edges) _ _ hb
      (fun node _ st hst => edges_mono_linkCPUNode hst)
  · rcases List.mem_map.mp hn with ⟨c, hc, rfl⟩
    rcases linkCPUNodes_edge_exists hnodup hrootmem
      (getCPUNodes_dur_ne_zero trace) hg1 hc with ⟨b, hb⟩
    exact ⟨b, hgeq ▸ hb⟩

/-- Claim C5: every graph returned by createGraph is acyclic — no node has
a dependency path back to itself, because every edge whose insertion could
close a cycle is dropped and every inserted edge points backwards in time
— and traverse visits each node exactly once and never revisits a node:
the visit order is duplicate-free and counts every vertex exactly once. -/
theorem createGraph_acyclic_traverse_once (trace : List TraceEvent)
    (records : List NetworkRecord) {res : GraphResult}
    (hnodup : (records.map (fun r => r.requestId)).Nodup)
    (hok : createGraph trace records = .ok res) :
    Acyclic res.graph ∧ (res.graph.traverse res.root).Nodup ∧
    ∀ n ∈ res.graph.nodeIds, (res.graph.traverse res.root).count n = 1 := by
  rcases createGraph_good hnodup hok with ⟨root, hrootmem, h1, hrootid, hgeq, hg⟩
  have hdeps := createGraph_deps_exist hnodup hrootmem hgeq hg
  have hsrc : ∀ e ∈ res.graph.edges, e.1 ∈ res.graph.nodeIds := by
    intro e he
    rw [hg.1]
    exact (hg.2.2 _ he).2.1
  obtain ⟨t1, t2⟩ := traverse_spec res.graph res.root hg.2.1 hsrc
  refine ⟨good_acyclic hg, t1, ?_⟩
  intro n hn
  have hmem : n ∈ res.graph.traverse res.root := by
    rcases good_reach_root hg hdeps n hn with h | h
    · refine t2 n ?_
      rw [h, ← hrootid]
      exact DepReach.refl
    · exact t2 n (hrootid ▸ h.toReach)
  exact List.count_eq_one_of_mem t1 hmem

/-! ## The ambiguous-initiator fallback (amended claim C2) -/

theorem requestId_inj {records : List NetworkRecord}
    (hnodup : (records.map (fun x => x.requestId)).Nodup)
    {ra rb : NetworkRecord} (ha : ra ∈ records) (hb : rb ∈ records)
    (h : ra.requestId = rb.requestId) : ra = rb := by
  have h1 := find?_requestId_self hnodup ha
  have h2 := find?_requestId_self hnodup hb
  rw [h] at h1
  rw [h1] at h2
  exact Option.some.inj h2

theorem linkNetworkNode_ambiguous_root_edge {records : List NetworkRecord}
    {cpuNodes : List CPUNode} {root : NetworkRecord} {g : Graph} {r : NetworkRecord}
    {u : String}
    (hg : GoodGraph records cpuNodes root g)
    (hrne : r.requestId ≠ root.requestId)
    (hinits : getNetworkInitiators r = [u])
    (hambig : ∀ c, urlCandidates records u ≠ [c]) :
    (.net r.requestId, .net root.requestId) ∈ (linkNetworkNode records root g r).edges := by
  rw [linkNetworkNode, if_neg hrne]
  simp only [hinits]
  rw [List.foldl_cons, List.foldl_nil]
  have hpar : initiatorParent records root r u = .net root.requestId := by
    rw [initiatorParent]
    rcases hcand : urlCandidates records u with _ | ⟨c, _ | ⟨c2, cs⟩⟩
    · rfl
    · exact absurd hcand (hambig c)
    · rfl
  rw [hpar]
  exact addDependency_root_inserts hg (by simpa using hrne)

theorem linkNetworkNodes_ambiguous_root_edge {records : List NetworkRecord}
    {cpuNodes : List CPUNode} {root : NetworkRecord} {g : Graph} {r : NetworkRecord}
    {u : String}
    (hnodup : (records.map (fun x => x.requestId)).Nodup)
    (hrootmem : root ∈ records)
    (hg : GoodGraph records cpuNodes root g)
    (hr : r ∈ records)
    (hrne : r.requestId ≠ root.requestId)
    (hinits : getNetworkInitiators r = [u])
    (hambig : ∀ c, urlCandidates records u ≠ [c]) :
    (.net r.requestId, .net root.requestId) ∈ (linkNetworkNodes records root g).edges := by
  rcases List.append_of_mem hr with ⟨s, t, hst⟩
  rw [linkNetworkNodes]
  nth_rewrite 2 [hst]
  rw [List.foldl_append, List.foldl_cons]
  have hgs : GoodGraph records cpuNodes root
      (s.foldl (linkNetworkNode records root) g) := by
    refine foldl_preserves _ _ _ _ hg ?_
    intro x hx g2 hg2
    refine good_linkNetworkNode hnodup hrootmem ?_ hg2
    rw [hst]
    exact List.mem_append.mpr (Or.inl hx)
  have hb := linkNetworkNode_ambiguous_root_edge hgs hrne hinits hambig
  exact foldl_preserves _
    (fun g2 : Graph => (NodeId.net r.requestId, NodeId.net root.requestId) ∈ g2.edges)
    t _ hb (fun v hv g2 hg2 => edges_mono_linkNetworkNode v hg2)

/-- Claim C2 (amended): when a request's initiator url is carried by two or
more records (a duplicate URL), the initiator is ambiguous, so in the graph
produced by createGraph the dependent request depends on the root node for
that initiator — not on the earliest-starting candidate, and not on any of
the candidates. -/
theorem createGraph_ambiguous_initiator_root (trace : List TraceEvent)
    (records : List NetworkRecord) {res : GraphResult} (r : NetworkRecord) (u : String)
    (hnodup : (records.map (fun x => x.requestId)).Nodup)
    (hok : createGraph trace records = .ok res)
    (hr : r ∈ records)
    (hrne : NodeId.net r.requestId ≠ res.root)
    (hinits : getNetworkInitiators r = [u])
    (hambig : 2 ≤ (urlCandidates records u).length) :
    res.root ∈ res.graph.getDependencies (.net r.requestId) ∧
    ∀ c ∈ records, c.url = u → NodeId.net c.requestId ≠ res.root →
      NodeId.net c.requestId ∉ res.graph.getDependencies (.net r.requestId) := by
  rcases createGraph_good hnodup hok with ⟨root, hrootmem, h1, hrootid, hgeq, hg⟩
  have hrne2 : r.requestId ≠ root.requestId := by
    intro h
    exact hrne (by rw [hrootid, h])
  have hambig2 : ∀ c, urlCandidates records u ≠ [c] := by
    intro c hc
    rw [hc] at hambig
    simp at hambig
  constructor
  · have hg0 : GoodGraph records (getCPUNodes trace) root
        (initialGraph records (getCPUNodes trace)) :=
      ⟨rfl, List.nodup_nil, by intro e he; simp [initialGraph] at he⟩
    have hb := linkNetworkNodes_ambiguous_root_edge hnodup hrootmem hg0 hr hrne2
      hinits hambig2
    have hbfin : (NodeId.net r.requestId, NodeId.net root.requestId) ∈
        res.graph.edges := by
      rw [hgeq, linkCPUNodes]
      exact foldl_preserves _
        (fun st : LinkState =>
          (NodeId.net r.requestId, NodeId.net root.requestId) ∈ st.g.edges) _ _ hb
        (fun node _ st hst => edges_mono_linkCPUNode hst)
    rw [hrootid]
    exact Graph.mem_getDependencies hbfin
  · intro c hc hcu hcne hmem
    have hedge := Graph.mem_getDependencies_iff.mp hmem
    rcases (hg.2.2 _ hedge).2.2.2.2 r.requestId c.requestId rfl with h2 | h2
    · exact hcne (by rw [hrootid, h2])
    · rcases h2 with ⟨ra, hra, hraid, u2, hu2, rc, hcand, hrcid, hrcne, hlt⟩
      have hrar : ra = r := requestId_inj hnodup hra hr hraid
      rw [hrar, hinits] at hu2
      simp only [List.mem_singleton] at hu2
      rw [hu2] at hcand
      exact hambig2 rc hcand

/-! ## CPU attribution edges (amended claim C6) -/

/-- The urls a child event attributes to its task, mirroring the
attribution cases of processChildEvent: script evaluation and layout
invalidations attribute the event url and stack urls, a completed XHR
ready-state change likewise, function calls and compile events attribute
the event url only. -/
def attributedUrls (evt : TraceEvent) : List String :=
  match evt.data with
  | none => []
  | some d =>
    if evt.name = "EvaluateScript" ∨ evt.name = "InvalidateLayout" ∨
        evt.name = "ScheduleStyleRecalculation" then eventUrls d
    else if evt.name = "XHRReadyStateChange" then
      if d.readyState = some 4 then eventUrls d else []
    else if evt.name = "FunctionCall" ∨ evt.name = "v8.compile" then
      match d.url with
      | some u => [u]
      | none => []
    else []

theorem addDependencyOnUrl_inserts {records : List NetworkRecord}
    {cpuNodes : List CPUNode} {root : NetworkRecord} {node : CPUNode} {g : Graph}
    {u : String} {c : NetworkRecord}
    (hnodup : (records.map (fun x => x.requestId)).Nodup)
    (hnode : node ∈ cpuNodes)
    (hg : GoodGraph records cpuNodes root g)
    (hu : u ≠ "") (hc : c ∈ urlCandidates records u)
    (hle : c.startTime ≤ (node.ts : ℤ)) :
    (cpuId node, .net c.requestId) ∈ (addDependencyOnUrl records node g u).edges := by
  have hcmem : c ∈ records := List.mem_of_mem_filter hc
  rw [addDependencyOnUrl, if_neg hu]
  rcases List.append_of_mem hc with ⟨s, t, hst⟩
  rw [hst, List.foldl_append, List.foldl_cons]
  have hgs : GoodGraph records cpuNodes root (s.foldl
      (fun g2 c2 => if c2.startTime ≤ (node.ts : ℤ) then
        g2.addDependency (cpuId node) (.net c2.requestId) else g2) g) := by
    refine foldl_preserves _ _ _ _ hg ?_
    intro x hx g2 hg2
    have hxmem : x ∈ records := by
      refine List.mem_of_mem_filter (l := records) (p := fun c2 => decide (c2.url = u)) ?_
      rw [← urlCandidates, hst]
      exact List.mem_append.mpr (Or.inl hx)
    split
    · rename_i hxle
      refine good_addDependency hg2
        ⟨by simp [cpuId], mem_allIds_cpu hnode, mem_allIds_net hxmem, ?_, ?_⟩
      · right
        rw [potOf_net hnodup hxmem, potOf_cpu]
        rcases lt_or_eq_of_le hxle with h | h
        · exact Or.inl h
        · exact Or.inr ⟨h, by norm_num⟩
      · intro a c2 h
        simp [cpuId] at h
    · exact hg2
  rw [if_pos hle]
  have hins : (cpuId node, .net c.requestId) ∈
      ((s.foldl (fun g2 c2 => if c2.startTime ≤ (node.ts : ℤ) then
        g2.addDependency (cpuId node) (.net c2.requestId) else g2) g).addDependency
          (cpuId node) (.net c.requestId)).edges := by
    refine Graph.addDependency_inserts _ (by simp [cpuId]) ?_
    intro hpath
    rcases good_path_pot hgs hpath with h1 | h1
    · simp [cpuId] at h1
    · rw [potOf_net hnodup hcmem, potOf_cpu] at h1
      rcases h1 with h1 | ⟨h1a, h1b⟩
      · exact absurd (lt_of_le_of_lt hle h1) (lt_irrefl _)
      · exact absurd h1b (by simp)
  exact foldl_preserves _
    (fun g2 : Graph => (cpuId node, NodeId.net c.requestId) ∈ g2.edges) t _ hins
    (fun x hx g2 hg2 => by
      split
      · exact Graph.mem_edges_addDependency _ _ _ hg2
      · exact hg2)

theorem addDependentNetworkRequest_inserts {records : List NetworkRecord}
    {cpuNodes : List CPUNode} {root : NetworkRecord} {node : CPUNode} {g : Graph}
    {rid : ℕ} {c : NetworkRecord}
    (hnodup : (records.map (fun x => x.requestId)).Nodup)
    (hg : GoodGraph records cpuNodes root g)
    (hfind : records.find? (fun x => decide (x.requestId = rid)) = some c)
    (hxhr : c.resourceType = .xhr) (hlt : (node.ts : ℤ) < c.startTime)
    (hnr : c.requestId ≠ root.requestId) :
    (.net c.requestId, cpuId node) ∈
      (addDependentNetworkRequest records root node g rid).edges := by
  have hcmem : c ∈ records := List.mem_of_find?_eq_some hfind
  simp only [addDependentNetworkRequest, hfind]
  rw [if_pos ⟨hxhr, hlt, hnr⟩]
  refine Graph.addDependency_inserts _ (by simp [cpuId]) ?_
  intro hpath
  rcases good_path_pot hg hpath with h1 | h1
  · exact hnr (by simpa using h1)
  · rw [potOf_net hnodup hcmem, potOf_cpu] at h1
    rcases h1 with h1 | ⟨h1a, h1b⟩
    · exact absurd (h1.trans hlt) (lt_irrefl _)
    · have h1c : c.startTime = (node.ts : ℤ) := h1a
      rw [h1c] at hlt
      exact absurd hlt (lt_irrefl _)

theorem processChildEvent_attr_edge {records : List NetworkRecord}
    {cpuNodes : List CPUNode} {root : NetworkRecord} {node : CPUNode} {st : LinkState}
    {evt : TraceEvent} {u : String} {c : NetworkRecord}
    (hnodup : (records.map (fun x => x.requestId)).Nodup)
    (hnode : node ∈ cpuNodes)
    (hst : GoodState records cpuNodes root st)
    (hu : u ∈ attributedUrls evt) (hune : u ≠ "")
    (hc : c ∈ urlCandidates records u) (hle : c.startTime ≤ (node.ts : ℤ)) :
    (cpuId node, .net c.requestId) ∈
      (processChildEvent records root node st evt).g.edges := by
  rcases hd : evt.data with _ | d
  · rw [attributedUrls] at hu
    rw [hd] at hu
    simp at hu
  by_cases h1 : evt.name = "TimerInstall"
  · exfalso
    simp [attributedUrls, hd, h1] at hu
  by_cases h2 : evt.name = "TimerFire"
  · exfalso
    simp [attributedUrls, hd, h2] at hu
  by_cases h3 : evt.name = "EvaluateScript" ∨ evt.name = "InvalidateLayout" ∨
      evt.name = "ScheduleStyleRecalculation"
  · rw [processChildEvent]
    simp only [hd, if_neg h1, if_neg h2, if_pos h3]
    have hu2 : u ∈ eventUrls d := by
      simp only [attributedUrls, hd] at hu
      rw [if_pos h3] at hu
      exact hu
    rcases List.append_of_mem hu2 with ⟨s, t, hst2⟩
    rw [hst2, List.foldl_append, List.foldl_cons]
    have hgs : GoodGraph records cpuNodes root
        (s.foldl (addDependencyOnUrl records node) st.g) :=
      foldl_preserves _ _ _ _ hst.1
        (fun v _ g2 hg2 => good_addDependencyOnUrl hnodup hnode hg2 v)
    have hins := addDependencyOnUrl_inserts hnodup hnode hgs hune hc hle
    exact foldl_preserves _
      (fun g2 : Graph => (cpuId node, NodeId.net c.requestId) ∈ g2.edges) t _ hins
      (fun v _ g2 hg2 => edges_mono_addDependencyOnUrl v hg2)
  by_cases h4 : evt.name = "XHRReadyStateChange"
  · by_cases h5 : d.readyState = some 4
    · rw [processChildEvent]
      simp only [hd, if_neg h1, if_neg h2, if_neg h3, if_pos h4, if_pos h5]
      have hu2 : u ∈ eventUrls d := by
        simp only [attributedUrls, hd] at hu
        rw [if_neg h3, if_pos h4, if_pos h5] at hu
        exact hu
      rcases List.append_of_mem hu2 with ⟨s, t, hst2⟩
      rw [hst2, List.foldl_append, List.foldl_cons]
      have hgs : GoodGraph records cpuNodes root
          (s.foldl (addDependencyOnUrl records node) st.g) :=
        foldl_preserves _ _ _ _ hst.1
          (fun v _ g2 hg2 => good_addDependencyOnUrl hnodup hnode hg2 v)
      have hins := addDependencyOnUrl_inserts hnodup hnode hgs hune hc hle
      exact foldl_preserves _
        (fun g2 : Graph => (cpuId node, NodeId.net c.requestId) ∈ g2.edges) t _ hins
        (fun v _ g2 hg2 => edges_mono_addDependencyOnUrl v hg2)
    · exfalso
      simp only [attributedUrls, hd] at hu
      rw [if_neg h3, if_pos h4, if_neg h5] at hu
      simp at hu
  by_cases h6 : evt.name = "FunctionCall" ∨ evt.name = "v8.compile"
  · simp only [attributedUrls, hd] at hu
    rw [if_neg h3, if_neg h4, if_pos h6] at hu
    rcases hdu : d.url with _ | u2
    · rw [hdu] at hu; simp at hu
    · rw [hdu] at hu
      simp only [List.mem_singleton] at hu
      subst hu
      rw [processChildEvent]
      simp only [hd, if_neg h1, if_neg h2, if_neg h3, if_neg h4, if_pos h6, hdu]
      exact addDependencyOnUrl_inserts hnodup hnode hst.1 hune hc hle
  · exfalso
    simp only [attributedUrls, hd] at hu
    rw [if_neg h3, if_neg h4, if_neg h6] at hu
    simp at hu

theorem processChildEvent_rsr_edge {records : List NetworkRecord}
    {cpuNodes : List CPUNode} {root : NetworkRecord} {node : CPUNode} {st : LinkState}
    {evt : TraceEvent} {d : ChildData} {rid : ℕ} {c : NetworkRecord}
    (hnodup : (records.map (fun x => x.requestId)).Nodup)
    (hst : GoodState records cpuNodes root st)
    (hname : evt.name = "ResourceSendRequest")
    (hd : evt.data = some d) (hrid : d.requestId = some rid)
    (hfind : records.find? (fun x => decide (x.requestId = rid)) = some c)
    (hxhr : c.resourceType = .xhr) (hlt : (node.ts : ℤ) < c.startTime)
    (hnr : c.requestId ≠ root.requestId) :
    (.net c.requestId, cpuId node) ∈
      (processChildEvent records root node st evt).g.edges := by
  have h1 : ¬ evt.name = "TimerInstall" := by rw [hname]; decide
  have h2 : ¬ evt.name = "TimerFire" := by rw [hname]; decide
  have h3 : ¬ (evt.name = "EvaluateScript" ∨ evt.name = "InvalidateLayout" ∨
      evt.name = "ScheduleStyleRecalculation") := by rw [hname]; decide
  have h4 : ¬ evt.name = "XHRReadyStateChange" := by rw [hname]; decide
  have h6 : ¬ (evt.name = "FunctionCall" ∨ evt.name = "v8.compile") := by
    rw [hname]; decide
  rw [processChildEvent]
  simp only [hd, if_neg h1, if_neg h2, if_neg h3, if_neg h4, if_neg h6,
    if_pos hname, hrid]
  exact addDependentNetworkRequest_inserts hnodup hst.1 hfind hxhr hlt hnr

/-- Edge produced while processing one child event of a task survives into
the task's final linking state. -/
theorem linkCPUNode_edge_of_event {records : List NetworkRecord}
    {cpuNodes : List CPUNode} {root : NetworkRecord} {node : CPUNode} {st : LinkState}
    (hnodup : (records.map (fun x => x.requestId)).Nodup)
    (hdur : ∀ c ∈ cpuNodes, c.dur ≠ 0)
    (hnode : node ∈ cpuNodes)
    (hst : GoodState records cpuNodes root st)
    {evt : TraceEvent} (hevt : evt ∈ node.childEvents)
    {e : NodeId × NodeId}
    (hins : ∀ st2, GoodState records cpuNodes root st2 →
      e ∈ (processChildEvent records root node st2 evt).g.edges) :
    e ∈ (linkCPUNode records root st node).g.edges := by
  have hfold : e ∈ (node.childEvents.foldl (processChildEvent records root node)
      st).g.edges := by
    rcases List.append_of_mem hevt with ⟨s, t, hst2⟩
    rw [hst2, List.foldl_append, List.foldl_cons]
    have hsts : GoodState records cpuNodes root
        (s.foldl (processChildEvent records root node) st) :=
      foldl_preserves _ _ _ _ hst
        (fun ev _ st2 hst3 => good_processChildEvent hnodup hdur hnode hst3 ev)
    exact foldl_preserves _
      (fun st2 : LinkState => e ∈ st2.g.edges) t _ (hins _ hsts)
      (fun ev _ st2 hst3 => edges_mono_processChildEvent ev hst3)
  rw [linkCPUNode]
  split
  · exact Graph.mem_edges_addDependency _ _ _ hfold
  · exact hfold

/-- Edge produced while linking one CPU node survives into the final graph
of linkCPUNodes. -/
theorem linkCPUNodes_edge_of_node {records : List NetworkRecord}
    {cpuNodes : List CPUNode} {root : NetworkRecord} {g : Graph}
    (hnodup : (records.map (fun x => x.requestId)).Nodup)
    (hrootmem : root ∈ records)
    (hdur : ∀ c ∈ cpuNodes, c.dur ≠ 0)
    (hg : GoodGraph records cpuNodes root g)
    {node : CPUNode} (hnode : node ∈ cpuNodes)
    {e : NodeId × NodeId}
    (hins : ∀ st, GoodState records cpuNodes root st →
      e ∈ (linkCPUNode records root st node).g.edges) :
    e ∈ (linkCPUNodes records root g cpuNodes).edges := by
  rcases List.append_of_mem hnode with ⟨s, t, hst⟩
  rw [linkCPUNodes, hst, List.foldl_append, List.foldl_cons]
  have hsts : GoodState records cpuNodes root
      (s.foldl (linkCPUNode records root) { g := g, timers := [] }) := by
    refine foldl_preserves _ _ _ _ ⟨hg, by simp⟩ ?_
    intro x hx st hstx
    refine good_linkCPUNode hnodup hrootmem hdur ?_ hstx
    rw [hst]
    exact List.mem_append.mpr (Or.inl hx)
  exact foldl_preserves _
    (fun st : LinkState => e ∈ st.g.edges) t _ (hins _ hsts)
    (fun x _ st2 hst2 => edges_mono_linkCPUNode hst2)

/-- Claim C6 (amended): in every graph produced by createGraph, a CPU task
depends on the network node for each url its child events attribute
(EvaluateScript, layout invalidations, completed XHRs, function calls)
whose request started at or before the task's start; and each XHR request
whose ResourceSendRequest child event lies in the task and that started
strictly after the task's start depends on that CPU task node. -/
theorem createGraph_cpu_attribution (trace : List TraceEvent)
    (records : List NetworkRecord) {res : GraphResult} (node : CPUNode)
    (hnodup : (records.map (fun r => r.requestId)).Nodup)
    (hok : createGraph trace records = .ok res)
    (hnode : node ∈ getCPUNodes trace) :
    (∀ evt ∈ node.childEvents, ∀ u ∈ attributedUrls evt, u ≠ "" →
      ∀ c ∈ urlCandidates records u, c.startTime ≤ (node.ts : ℤ) →
        NodeId.net c.requestId ∈ res.graph.getDependencies (cpuId node)) ∧
    (∀ evt ∈ node.childEvents, evt.name = "ResourceSendRequest" →
      ∀ d, evt.data = some d → ∀ rid, d.requestId = some rid →
      ∀ c, records.find? (fun x => decide (x.requestId = rid)) = some c →
        c.resourceType = .xhr → (node.ts : ℤ) < c.startTime →
        NodeId.net c.requestId ≠ res.root →
        cpuId node ∈ res.graph.getDependencies (.net c.requestId)) := by
  rcases createGraph_good hnodup hok with ⟨root, hrootmem, h1, hrootid, hgeq, hg⟩
  have hg0 : GoodGraph records (getCPUNodes trace) root
      (initialGraph records (getCPUNodes trace)) :=
    ⟨rfl, List.nodup_nil, by intro e he; simp [initialGraph] at he⟩
  have hg1 := good_linkNetworkNodes hnodup hrootmem hg0
  have hdur := getCPUNodes_dur_ne_zero trace
  constructor
  · intro evt hevt u hu hune c hc hle
    refine Graph.mem_getDependencies ?_
    rw [hgeq]
    refine linkCPUNodes_edge_of_node hnodup hrootmem hdur hg1 hnode ?_
    intro st hst
    refine linkCPUNode_edge_of_event hnodup hdur hnode hst hevt ?_
    intro st2 hst2
    exact processChildEvent_attr_edge hnodup hnode hst2 hu hune hc hle
  · intro evt hevt hname d hd rid hrid c hfind hxhr hlt hnr
    have hnr2 : c.requestId ≠ root.requestId := by
      intro h
      exact hnr (by rw [hrootid, h])
    refine Graph.mem_getDependencies ?_
    rw [hgeq]
    refine linkCPUNodes_edge_of_node hnodup hrootmem hdur hg1 hnode ?_
    intro st hst
    refine linkCPUNode_edge_of_event hnodup hdur hnode hst hevt ?_
    intro st2 hst2
    exact processChildEvent_rsr_edge hnodup hst2 hname hd hrid hfind hxhr hlt hnr2

end PageDependencyGraph

/-- Witness for claim C5 at the repository's forgiving-cycles fixture. -/
theorem createGraph_acyclic_traverse_once_witness :
    PageDependencyGraph.Acyclic cyclicResult.graph ∧
    (cyclicResult.graph.traverse cyclicResult.root).Nodup ∧
    ∀ n ∈ cyclicResult.graph.nodeIds,
      (cyclicResult.graph.traverse cyclicResult.root).count n = 1 :=
  PageDependencyGraph.createGraph_acyclic_traverse_once cyclicTrace cyclicRecords
    (by decide) (by decide)

/-- Witness for the amended claim C2 at the duplicate-URL fixture: request
4 depends on the root node 1 and on neither of the two records sharing url
"2". -/
theorem createGraph_ambiguous_initiator_root_witness :
    dupResult.root ∈ dupResult.graph.getDependencies (.net 4) ∧
    ∀ c ∈ dupRecords, c.url = "2" → NodeId.net c.requestId ≠ dupResult.root →
      NodeId.net c.requestId ∉ dupResult.graph.getDependencies (.net 4) :=
  PageDependencyGraph.createGraph_ambiguous_initiator_root emptyTaskTrace dupRecords
    (mkRequest 4 "4" 10 (.url "2") .document) "2" (by decide) (by decide) (by decide)
    (by decide) (by decide) (by decide)

/-- Witness for the amended claim C6 at the network-and-CPU fixture: the
task at 200ms depends on the node for url "2" it evaluates, and the XHR
request 4 sent inside that task depends on the task. -/
theorem createGraph_cpu_attribution_witness :
    NodeId.net 2 ∈ netCpuResult.graph.getDependencies
      (PageDependencyGraph.cpuId netCpuTask1) ∧
    PageDependencyGraph.cpuId netCpuTask1 ∈
      netCpuResult.graph.getDependencies (.net 4) := by
  have h := @PageDependencyGraph.createGraph_cpu_attribution netCpuTrace netCpuRecords
    netCpuResult netCpuTask1 (by decide) (by decide) (by decide)
  refine ⟨?_, ?_⟩
  · exact h.1 (mkChild "EvaluateScript" 200 1 { noData with url := some "2" })
      (by decide) "2" (by decide) (by decide) (mkRequest 2 "2" 50 .absent .document)
      (by decide) (by decide)
  · exact h.2 (mkChild "ResourceSendRequest" 200 2 { noData with requestId := some 4 })
      (by decide) (by decide) { noData with requestId := some 4 } (by decide) 4
      (by decide) (mkRequest 4 "4" 300 .absent .xhr) (by decide) (by decide)
      (by decide) (by decide)

/-! ## First CPU Idle: the quiet-window search

Modelled from the spec: the metric implementation
(`lighthouse-core/computed/metrics/first-cpu-idle.js`) is not present in
this repository, only its test suite, so the definitions below follow
spec section 4.4 and are checked against every expectation of
`test/computed/metrics/first-cpu-idle-test.js`.  All times are integer
milliseconds.  The required quiet-window size shrinks from 5000ms toward
3000ms as the candidate window moves away from FMP along a tuned decay
curve; spec section 9 classifies such tuned coefficients as configuration
values, so the model takes the window-size function `W` as a parameter
and the theorems constrain it to the spec's 3000–5000ms band. -/

namespace FirstCPUIdle

/-- A long main-thread task interval, in milliseconds. -/
structure TaskEvent where
  start : ℤ
  finish : ℤ
deriving DecidableEq

/-- Modelled from the spec: errors of the First CPU Idle metric —
`NoQuietWindowError` and the trace-too-short prerequisite error. -/
inductive MetricError where
  | noQuietWindow
  | fmpTooLate
deriving DecidableEq

/-- The longest window size the search ever requires (ms). -/
def MAX_QUIET_WINDOW_SIZE : ℤ := 5000

/-- Tasks closer together than this form one cluster (ms). -/
def MIN_TASK_CLUSTER_PADDING : ℤ := 1000

/-- Clusters beginning within this distance of FMP disqualify a window. -/
def MIN_TASK_CLUSTER_FMP_DISTANCE : ℤ := 5000

/-- The busiest a cluster may be without disqualifying a window (ms). -/
def MAX_TASK_CLUSTER_DURATION : ℤ := 250

/-- Modelled from the spec: a maximal run of long tasks whose gaps never
exceed `MIN_TASK_CLUSTER_PADDING`, summarised by extent and busy time. -/
structure TaskCluster where
  start : ℤ
  finish : ℤ
  duration : ℤ
deriving DecidableEq

/-- One grouping step: open a new cluster when the gap from the previous
task's end exceeds the padding, otherwise extend the current cluster.
The accumulator carries the clusters in reverse and the last end time. -/
def clusterStep (acc : List (List TaskEvent) × ℤ) (t : TaskEvent) :
    List (List TaskEvent) × ℤ :=
  if MIN_TASK_CLUSTER_PADDING < t.start - acc.2 then
    ([t] :: acc.1, t.finish)
  else
    match acc.1 with
    | [] => ([[t]], t.finish)
    | c :: cs => ((t :: c) :: cs, t.finish)

/-- Group consecutive long tasks into clusters separated by more than
`MIN_TASK_CLUSTER_PADDING` of quiet. -/
def groupByGap : List TaskEvent → List (List TaskEvent)
  | [] => []
  | t :: ts =>
    (((ts.foldl clusterStep ([[t]], t.finish)).1).map List.reverse).reverse

/-- Total busy time of a cluster. -/
def clusterDuration (c : List TaskEvent) : ℤ :=
  (c.map (fun t => t.finish - t.start)).sum

/-- Summarise one cluster by its extent and total busy time. -/
def mkCluster (c : List TaskEvent) : TaskCluster :=
  { start := (c.headD ⟨0, 0⟩).start
    finish := (c.getLastD ⟨0, 0⟩).finish
    duration := clusterDuration c }

/-- Modelled from the spec: the clusters considered for a candidate window
ending at `windowEnd` — built from the tasks starting within padding of
the window, keeping the clusters that begin inside the window. -/
def getTaskClustersInWindow (windowEnd : ℤ) (tasks : List TaskEvent) :
    List TaskCluster :=
  ((groupByGap (tasks.takeWhile
      (fun t => decide (t.start < windowEnd + MIN_TASK_CLUSTER_PADDING)))).map
    mkCluster).filter (fun c => decide (c.start < windowEnd))

/-- Modelled from the spec: a cluster disqualifies a window when it begins
within `MIN_TASK_CLUSTER_FMP_DISTANCE` of FMP (tasks soon after FMP are
never "light") or is busy for more than `MAX_TASK_CLUSTER_DURATION`. -/
def isBadCluster (fmp : ℤ) (c : TaskCluster) : Bool :=
  decide (c.start - fmp < MIN_TASK_CLUSTER_FMP_DISTANCE) ||
  decide (MAX_TASK_CLUSTER_DURATION < c.duration)

/-- Whether the first task of `rest` starts within cluster padding of the
candidate window opening at `t.finish` (such a candidate is skipped: the
quiet window may not open at the start of a cluster). -/
def startsCluster (t : TaskEvent) : List TaskEvent → Bool
  | [] => false
  | next :: _ => decide (next.start - t.finish ≤ MIN_TASK_CLUSTER_PADDING)

/-- Modelled from the spec: scan the candidate quiet windows opening at
each long-task end.  `W` gives the required window size as a function of
the candidate's distance from FMP.  A candidate whose window would run
past the trace end fails the search; a candidate that opens at the start
of a cluster, or whose window contains a disqualifying cluster, is
skipped; otherwise its opening time is the answer. -/
def findQuietWindowLoop (W : ℤ → ℤ) (fmp traceEnd : ℤ) :
    List TaskEvent → Except MetricError ℤ
  | [] => .error .noQuietWindow
  | t :: rest =>
    if traceEnd < t.finish + W (t.finish - fmp) then .error .noQuietWindow
    else if startsCluster t rest then findQuietWindowLoop W fmp traceEnd rest
    else if (getTaskClustersInWindow (t.finish + W (t.finish - fmp)) rest).any
        (isBadCluster fmp) then
      findQuietWindowLoop W fmp traceEnd rest
    else .ok t.finish

/-- Modelled from the spec (section 4.4): if there are no long tasks, or
the first long task starts more than `MAX_QUIET_WINDOW_SIZE` after FMP,
FMP itself opens a quiet window; otherwise scan the task end times. -/
def findQuietWindow (W : ℤ → ℤ) (fmp traceEnd : ℤ)
    (longTasks : List TaskEvent) : Except MetricError ℤ :=
  match longTasks with
  | [] => .ok fmp
  | t :: _ =>
    if fmp + MAX_QUIET_WINDOW_SIZE < t.start then .ok fmp
    else findQuietWindowLoop W fmp traceEnd longTasks

/-- Unfolding lemma: a non-degenerate first task hands over to the scan. -/
theorem findQuietWindow_cons (W : ℤ → ℤ) (fmp traceEnd : ℤ) (t : TaskEvent)
    (rest : List TaskEvent) (h : ¬ fmp + MAX_QUIET_WINDOW_SIZE < t.start) :
    findQuietWindow W fmp traceEnd (t :: rest) =
      findQuietWindowLoop W fmp traceEnd (t :: rest) := by
  simp only [findQuietWindow]
  rw [if_neg h]

/-- A candidate whose required window runs past the trace end fails. -/
theorem findQuietWindowLoop_cons_throw (W : ℤ → ℤ) (fmp traceEnd : ℤ)
    (t : TaskEvent) (rest : List TaskEvent)
    (h : traceEnd < t.finish + W (t.finish - fmp)) :
    findQuietWindowLoop W fmp traceEnd (t :: rest) = .error .noQuietWindow := by
  simp only [findQuietWindowLoop]
  rw [if_pos h]

/-- A candidate that fits in the trace, does not open a cluster, and has
no disqualifying cluster in its window is the search result. -/
theorem findQuietWindowLoop_cons_ok (W : ℤ → ℤ) (fmp traceEnd : ℤ)
    (t : TaskEvent) (rest : List TaskEvent)
    (h1 : ¬ traceEnd < t.finish + W (t.finish - fmp))
    (h2 : startsCluster t rest = false)
    (h3 : (getTaskClustersInWindow (t.finish + W (t.finish - fmp)) rest).any
      (isBadCluster fmp) = false) :
    findQuietWindowLoop W fmp traceEnd (t :: rest) = .ok t.finish := by
  simp only [findQuietWindowLoop]
  rw [if_neg h1, h2, if_neg Bool.false_ne_true, h3, if_neg Bool.false_ne_true]

/-- The clusters of a one-task tail: the task forms a cluster exactly when
it starts inside the window. -/
theorem clustersInWindow_singleton (windowEnd : ℤ) (t : TaskEvent) :
    getTaskClustersInWindow windowEnd [t] =
      if t.start < windowEnd then [mkCluster [t]] else [] := by
  rw [getTaskClustersInWindow]
  by_cases h : t.start < windowEnd + MIN_TASK_CLUSTER_PADDING
  · rw [List.takeWhile_cons]
    simp only [decide_eq_true h, if_pos trivial, List.takeWhile_nil, if_true]
    have hg : groupByGap [t] = [[t]] := rfl
    rw [hg, List.map_cons, List.map_nil, List.filter_singleton]
    by_cases h2 : t.start < windowEnd
    · rw [decide_eq_true (show (mkCluster [t]).start < windowEnd from h2)]
      rw [if_pos h2]
      rfl
    · rw [decide_eq_false (show ¬ (mkCluster [t]).start < windowEnd from h2)]
      rw [if_neg h2]
      rfl
  · rw [List.takeWhile_cons]
    rw [decide_eq_false h]
    have h2 : ¬ t.start < windowEnd := by
      simp only [MIN_TASK_CLUSTER_PADDING] at h
      omega
    rw [if_neg Bool.false_ne_true, if_neg h2]
    rfl

/-- Claim C4: the three pinned quiet-window instances hold for every
required-window-size function `W` inside the spec's 3000–5000ms band:
with no long tasks the search returns FMP = 200 at once; with tasks
2200–4000 and 9000–10000 it returns 4000, the end of the first task; and
with a single task 4000–5700 in a trace ending at 6000 there is not
enough trailing margin, so it fails with `noQuietWindow`. -/
theorem findQuietWindow_instances (W : ℤ → ℤ)
    (hW : ∀ t : ℤ, 0 ≤ t → 3000 ≤ W t ∧ W t ≤ 5000) :
    findQuietWindow W 200 1000 [] = .ok 200 ∧
    findQuietWindow W 200 60000 [⟨2200, 4000⟩, ⟨9000, 10000⟩] = .ok 4000 ∧
    findQuietWindow W 200 6000 [⟨4000, 5700⟩] = .error .noQuietWindow := by
  obtain ⟨h2a, h2b⟩ := hW 3800 (by norm_num)
  obtain ⟨h3a, h3b⟩ := hW 5500 (by norm_num)
  refine ⟨rfl, ?_, ?_⟩
  · have h1 : ¬ (60000 : ℤ) < (⟨2200, 4000⟩ : TaskEvent).finish +
        W ((⟨2200, 4000⟩ : TaskEvent).finish - 200) := by
      show ¬ (60000 : ℤ) < 4000 + W 3800
      intro hcon
      linarith
    have h3 : (getTaskClustersInWindow ((⟨2200, 4000⟩ : TaskEvent).finish +
        W ((⟨2200, 4000⟩ : TaskEvent).finish - 200)) [⟨9000, 10000⟩]).any
        (isBadCluster 200) = false := by
      show (getTaskClustersInWindow (4000 + W 3800) [⟨9000, 10000⟩]).any
        (isBadCluster 200) = false
      rw [clustersInWindow_singleton]
      rw [if_neg (show ¬ (⟨9000, 10000⟩ : TaskEvent).start < 4000 + W 3800 by
        show ¬ (9000 : ℤ) < 4000 + W 3800
        intro hcon
        linarith)]
      rfl
    rw [findQuietWindow_cons W 200 60000 _ _ (by decide),
      findQuietWindowLoop_cons_ok W 200 60000 ⟨2200, 4000⟩ [⟨9000, 10000⟩] h1
        (by decide) h3]
  · have h1 : (6000 : ℤ) < (⟨4000, 5700⟩ : TaskEvent).finish +
        W ((⟨4000, 5700⟩ : TaskEvent).finish - 200) := by
      show (6000 : ℤ) < 5700 + W 5500
      linarith
    rw [findQuietWindow_cons W 200 6000 _ _ (by decide),
      findQuietWindowLoop_cons_throw W 200 6000 ⟨4000, 5700⟩ [] h1]

/-- Witness for claim C4 at the constant in-band window size of 4000ms. -/
theorem findQuietWindow_instances_witness :
    findQuietWindow (fun _ => 4000) 200 1000 [] = .ok 200 ∧
    findQuietWindow (fun _ => 4000) 200 60000 [⟨2200, 4000⟩, ⟨9000, 10000⟩] =
      .ok 4000 ∧
    findQuietWindow (fun _ => 4000) 200 6000 [⟨4000, 5700⟩] =
      .error .noQuietWindow :=
  findQuietWindow_instances (fun _ => 4000)
    (fun t ht => ⟨(by decide : (3000 : ℤ) ≤ 4000), (by decide : (4000 : ℤ) ≤ 5000)⟩)

/-- A computed observed metric value: a timing in milliseconds since
navigation start and an absolute timestamp in microseconds. -/
structure MetricResult where
  timing : ℤ
  timestamp : ℤ
deriving DecidableEq

/-- Main-thread tasks at least this long (ms) count as long tasks. -/
def LONG_TASK_THRESHOLD : ℤ := 50

/-- Modelled from the spec: the observed First CPU Idle.  Fails with the
trace-too-short error when the trace ends less than a maximal quiet
window after FMP; otherwise searches for the quiet window over the long
tasks (duration at least 50ms) that end after FMP, clamps the result to
be no earlier than domContentLoaded, and reports the absolute timestamp
as navigationStart plus the timing converted to microseconds. -/
def computeObservedMetric (W : ℤ → ℤ) (fmp dcl traceEnd navStart : ℤ)
    (events : List TaskEvent) : Except MetricError MetricResult :=
  if traceEnd - fmp < MAX_QUIET_WINDOW_SIZE then .error .fmpTooLate
  else
    (findQuietWindow W fmp traceEnd
        (events.filter (fun e =>
          decide (LONG_TASK_THRESHOLD ≤ e.finish - e.start) &&
          decide (fmp < e.finish)))).map
      (fun q => { timing := max q dcl, timestamp := max q dcl * 1000 + navStart })

/-- A successful scan returns the end time of one of the long tasks. -/
theorem findQuietWindowLoop_ok_mem (W : ℤ → ℤ) (fmp traceEnd : ℤ) :
    ∀ (tasks : List TaskEvent) (q : ℤ),
      findQuietWindowLoop W fmp traceEnd tasks = .ok q →
      q ∈ tasks.map (fun t => t.finish) := by
  intro tasks
  induction tasks with
  | nil =>
    intro q h
    exact absurd h (by simp [findQuietWindowLoop])
  | cons t rest ih =>
    intro q h
    simp only [findQuietWindowLoop] at h
    by_cases h1 : traceEnd < t.finish + W (t.finish - fmp)
    · rw [if_pos h1] at h
      exact absurd h (by simp)
    · rw [if_neg h1] at h
      by_cases h2 : startsCluster t rest = true
      · rw [if_pos h2] at h
        exact List.mem_cons_of_mem _ (ih q h)
      · rw [if_neg h2] at h
        by_cases h3 : (getTaskClustersInWindow (t.finish + W (t.finish - fmp))
            rest).any (isBadCluster fmp) = true
        · rw [if_pos h3] at h
          exact List.mem_cons_of_mem _ (ih q h)
        · rw [if_neg h3] at h
          have hq : t.finish = q := Except.ok.inj h
          rw [List.map_cons, ← hq]
          exact List.mem_cons_self _ _

/-- A successful quiet-window search returns either FMP itself or the end
time of one of the long tasks. -/
theorem findQuietWindow_ok_cases (W : ℤ → ℤ) (fmp traceEnd : ℤ)
    (tasks : List TaskEvent) (q : ℤ)
    (h : findQuietWindow W fmp traceEnd tasks = .ok q) :
    q = fmp ∨ q ∈ tasks.map (fun t => t.finish) := by
  cases tasks with
  | nil =>
    left
    have : Except.ok (ε := MetricError) fmp = .ok q := h
    exact (Except.ok.inj this).symm
  | cons t rest =>
    simp only [findQuietWindow] at h
    by_cases h1 : fmp + MAX_QUIET_WINDOW_SIZE < t.start
    · rw [if_pos h1] at h
      exact Or.inl (Except.ok.inj h).symm
    · rw [if_neg h1] at h
      exact Or.inr (findQuietWindowLoop_ok_mem W fmp traceEnd _ q h)

/-- Claim C9: the observed First CPU Idle is clamped below by both FMP
and domContentLoaded and carries `timestamp = navigationStart + 1000 *
timing`; with no qualifying long tasks it is exactly
`max fmp domContentLoaded`; and on the repository's DCL-after-interactive
fixture (FMP 3400, DCL 7000, one 100ms task at 5000) it returns DCL. -/
theorem computeObservedMetric_clamped (W : ℤ → ℤ)
    (hW : ∀ t : ℤ, 0 ≤ t → 3000 ≤ W t ∧ W t ≤ 5000) :
    (∀ fmp dcl traceEnd navStart : ℤ, ∀ events : List TaskEvent,
      ∀ r : MetricResult,
      computeObservedMetric W fmp dcl traceEnd navStart events = .ok r →
      fmp ≤ r.timing ∧ dcl ≤ r.timing ∧
        r.timestamp = r.timing * 1000 + navStart) ∧
    (∀ fmp dcl traceEnd navStart : ℤ, ∀ events : List TaskEvent,
      MAX_QUIET_WINDOW_SIZE ≤ traceEnd - fmp →
      events.filter (fun e =>
        decide (LONG_TASK_THRESHOLD ≤ e.finish - e.start) &&
        decide (fmp < e.finish)) = [] →
      computeObservedMetric W fmp dcl traceEnd navStart events =
        .ok ⟨max fmp dcl, max fmp dcl * 1000 + navStart⟩) ∧
    computeObservedMetric W 3400 7000 12000 0 [⟨5000, 5100⟩] =
      .ok ⟨7000, 7000000⟩ := by
  refine ⟨?_, ?_, ?_⟩
  · intro fmp dcl traceEnd navStart events r h
    rw [computeObservedMetric] at h
    by_cases hc : traceEnd - fmp < MAX_QUIET_WINDOW_SIZE
    · rw [if_pos hc] at h
      exact absurd h (by simp)
    · rw [if_neg hc] at h
      cases hq : findQuietWindow W fmp traceEnd
          (events.filter (fun e =>
            decide (LONG_TASK_THRESHOLD ≤ e.finish - e.start) &&
            decide (fmp < e.finish))) with
      | error e =>
        rw [hq] at h
        exact absurd h (by simp [Except.map])
      | ok q =>
        rw [hq] at h
        simp only [Except.map] at h
        have hr : ({ timing := max q dcl, timestamp := max q dcl * 1000 + navStart }
            : MetricResult) = r := Except.ok.inj h
        have hfq : fmp ≤ q := by
          rcases findQuietWindow_ok_cases W fmp traceEnd _ q hq with heq | hmem
          · exact le_of_eq heq.symm
          · obtain ⟨t, ht, htq⟩ := List.mem_map.mp hmem
            have ht2 := (List.mem_filter.mp ht).2
            simp only [Bool.and_eq_true, decide_eq_true_eq] at ht2
            rw [← htq]
            exact le_of_lt ht2.2
        rw [← hr]
        refine ⟨le_trans hfq (le_max_left _ _), le_max_right _ _, rfl⟩
  · intro fmp dcl traceEnd navStart events hlong hfilter
    rw [computeObservedMetric, if_neg (not_lt.mpr hlong), hfilter]
    rfl
  · obtain ⟨ha, hb⟩ := hW 1700 (by norm_num)
    have hq : findQuietWindow W 3400 12000 [⟨5000, 5100⟩] = .ok 5100 := by
      have h1 : ¬ (12000 : ℤ) < (⟨5000, 5100⟩ : TaskEvent).finish +
          W ((⟨5000, 5100⟩ : TaskEvent).finish - 3400) := by
        show ¬ (12000 : ℤ) < 5100 + W 1700
        intro hcon
        linarith
      rw [findQuietWindow_cons W 3400 12000 _ _ (by decide),
        findQuietWindowLoop_cons_ok W 3400 12000 ⟨5000, 5100⟩ [] h1 rfl rfl]
    show (findQuietWindow W 3400 12000 [⟨5000, 5100⟩]).map
      (fun q => ({ timing := max q 7000, timestamp := max q 7000 * 1000 + 0 }
        : MetricResult)) = .ok ⟨7000, 7000000⟩
    rw [hq]
    rfl

/-- Witness for claim C9 at the constant in-band window size of 4000ms. -/
theorem computeObservedMetric_clamped_witness :
    (∀ fmp dcl traceEnd navStart : ℤ, ∀ events : List TaskEvent,
      ∀ r : MetricResult,
      computeObservedMetric (fun _ => 4000) fmp dcl traceEnd navStart events =
        .ok r →
      fmp ≤ r.timing ∧ dcl ≤ r.timing ∧
        r.timestamp = r.timing * 1000 + navStart) ∧
    (∀ fmp dcl traceEnd navStart : ℤ, ∀ events : List TaskEvent,
      MAX_QUIET_WINDOW_SIZE ≤ traceEnd - fmp →
      events.filter (fun e =>
        decide (LONG_TASK_THRESHOLD ≤ e.finish - e.start) &&
        decide (fmp < e.finish)) = [] →
      computeObservedMetric (fun _ => 4000) fmp dcl traceEnd navStart events =
        .ok ⟨max fmp dcl, max fmp dcl * 1000 + navStart⟩) ∧
    computeObservedMetric (fun _ => 4000) 3400 7000 12000 0 [⟨5000, 5100⟩] =
      .ok ⟨7000, 7000000⟩ :=
  computeObservedMetric_clamped (fun _ => 4000)
    (fun t ht => ⟨(by decide : (3000 : ℤ) ≤ 4000), (by decide : (4000 : ℤ) ≤ 5000)⟩)

end FirstCPUIdle

/-! ## Main-thread task trees

Modelled from the spec: the implementation
(`lighthouse-core/lib/tracehouse/main-thread-tasks.js`) is not present in
this repository, only its test suite, so the definitions below follow the
spec's CPUTask data model (section 3: parent/children tree from nested
trace events, self-time = duration minus time spent in children) and are
checked against the nesting fixtures of
`test/lib/tracehouse/main-thread-tasks-test.js`.  Times are integer
milliseconds.  The top-level events arrive sorted by start time; the
forest is built by inserting events from the last to the first, each new
event adopting as children the already-built roots that start before it
ends (they must then also end before it ends, otherwise the trace nesting
is invalid). -/

namespace MainThreadTasks

/-- A top-level trace-event interval, in milliseconds. -/
structure TaskIv where
  start : ℤ
  finish : ℤ
deriving DecidableEq

/-- Modelled from the spec: invalid nesting of trace events. -/
inductive TaskError where
  | invalidNesting
deriving DecidableEq

mutual
/-- Modelled from the spec: a task with its nested child tasks. -/
inductive TaskTree where
  | node (start finish : ℤ) (children : TaskForest)
/-- A list of sibling task trees (a separate inductive so that the
recursions below stay structural and kernel-reducible). -/
inductive TaskForest where
  | nil
  | cons (t : TaskTree) (ts : TaskForest)
end

def TaskTree.start : TaskTree → ℤ
  | .node s _ _ => s

def TaskTree.finish : TaskTree → ℤ
  | .node _ f _ => f

def TaskTree.children : TaskTree → TaskForest
  | .node _ _ cs => cs

/-- A task's duration is the extent of its interval. -/
def TaskTree.duration (t : TaskTree) : ℤ := t.finish - t.start

def TaskForest.toList : TaskForest → List TaskTree
  | .nil => []
  | .cons t ts => t :: ts.toList

def TaskForest.ofList : List TaskTree → TaskForest
  | [] => .nil
  | t :: ts => .cons t (TaskForest.ofList ts)

theorem TaskForest.toList_ofList : ∀ l : List TaskTree,
    (TaskForest.ofList l).toList = l
  | [] => rfl
  | t :: ts => by rw [TaskForest.ofList, TaskForest.toList, toList_ofList ts]

/-- The flat task record emitted for one tree node. -/
structure Task where
  start : ℤ
  finish : ℤ
  duration : ℤ
  selfTime : ℤ
deriving DecidableEq

/-- Total duration of the children of a node. -/
def childrenDuration (cs : TaskForest) : ℤ :=
  (cs.toList.map TaskTree.duration).sum

/-- Modelled from the spec: the flat record for one node — its self-time
is its duration minus the time spent in its children. -/
def taskOf (t : TaskTree) : Task :=
  { start := t.start
    finish := t.finish
    duration := t.duration
    selfTime := t.duration - childrenDuration t.children }

mutual
/-- Emit a tree's flat records, the node itself first. -/
def flattenTree : TaskTree → List Task
  | .node s f cs => taskOf (.node s f cs) :: flattenForest cs
/-- Emit a forest's flat records in sibling order. -/
def flattenForest : TaskForest → List Task
  | .nil => []
  | .cons t ts => flattenTree t ++ flattenForest ts
end

/-- Modelled from the spec: insert a top-level event into the forest built
from the later events.  The event adopts as children every root that
starts before it ends; a root that starts inside it but ends outside it
is invalid nesting, as is a reversed interval. -/
def insertTask (iv : TaskIv) (forest : List TaskTree) :
    Except TaskError (List TaskTree) :=
  if iv.finish < iv.start then .error .invalidNesting
  else if (forest.takeWhile (fun t => decide ( t.start < iv.finish))).all
      (fun t => decide ( t.finish ≤ iv.finish)) then
    .ok (.node iv.start iv.finish
        (TaskForest.ofList (forest.takeWhile (fun t => decide ( t.start < iv.finish)))) ::
      forest.dropWhile (fun t => decide ( t.start < iv.finish)))
  else .error .invalidNesting

/-- Modelled from the spec: build the forest from the sorted top-level
events, last event first. -/
def buildForest : List TaskIv → Except TaskError (List TaskTree)
  | [] => .ok []
  | iv :: rest => (buildForest rest).bind (insertTask iv)

/-- Modelled from the spec: the flat list of all main-thread tasks, in
top-level order with each task preceding its descendants. -/
def getMainThreadTasks (l : List TaskIv) : Except TaskError (List Task) :=
  (buildForest l).map (fun f => (f.map flattenTree).flatten)

/-- Spec invariant (data model, section 3): every child's interval nests
inside its parent's, the node is a well-formed interval, and the children
are listed in order and pairwise disjoint. -/
inductive WellNested : TaskTree → Prop where
  | node {s f : ℤ} {cs : TaskForest} :
      s ≤ f →
      (∀ c ∈ cs.toList, s ≤ c.start ∧ c.finish ≤ f) →
      List.Chain' (fun a b : TaskTree => a.finish ≤ b.start) cs.toList →
      (∀ c ∈ cs.toList, WellNested c) →
      WellNested (.node s f cs)

/-- Reachability through children links. -/
inductive IsSubtree : TaskTree → TaskTree → Prop where
  | refl (t : TaskTree) : IsSubtree t t
  | child {sub c t : TaskTree} : c ∈ t.children.toList → IsSubtree sub c →
      IsSubtree sub t

mutual
theorem flattenTree_selfTime_sum (t : TaskTree) :
    ((flattenTree t).map Task.selfTime).sum = t.duration := by
  match t with
  | .node s f cs =>
    rw [flattenTree, List.map_cons, List.sum_cons, flattenForest_selfTime_sum cs]
    show TaskTree.duration (.node s f cs) - childrenDuration cs +
      childrenDuration cs = TaskTree.duration (.node s f cs)
    ring
theorem flattenForest_selfTime_sum (cs : TaskForest) :
    ((flattenForest cs).map Task.selfTime).sum = childrenDuration cs := by
  match cs with
  | .nil => rfl
  | .cons t ts =>
    rw [flattenForest, List.map_append, List.sum_append,
      flattenTree_selfTime_sum t, flattenForest_selfTime_sum ts]
    show t.duration + childrenDuration ts =
      ((t :: ts.toList).map TaskTree.duration).sum
    rw [List.map_cons, List.sum_cons]
    rfl
end

/-- The self-times of all emitted tasks sum to the total duration of the
top-level tasks. -/
theorem flattenRoots_selfTime_sum (forest : List TaskTree) :
    (((forest.map flattenTree).flatten).map Task.selfTime).sum =
      (forest.map TaskTree.duration).sum := by
  induction forest with
  | nil => rfl
  | cons t ts ih =>
    rw [List.map_cons, List.flatten_cons, List.map_append, List.sum_append, ih,
      flattenTree_selfTime_sum t, List.map_cons, List.sum_cons]

/-- A tree's emission contains the emission of each child. -/
theorem mem_flattenForest_of_mem (cs : TaskForest) (c : TaskTree)
    (hc : c ∈ cs.toList) (x : Task) (hx : x ∈ flattenTree c) :
    x ∈ flattenForest cs := by
  match cs with
  | .nil => exact absurd hc (by simp [TaskForest.toList])
  | .cons t ts =>
    rw [TaskForest.toList, List.mem_cons] at hc
    rw [flattenForest, List.mem_append]
    rcases hc with rfl | hc
    · exact Or.inl hx
    · exact Or.inr (mem_flattenForest_of_mem ts c hc x hx)

/-- A tree's own record heads its emission. -/
theorem taskOf_mem_flattenTree_self : ∀ t : TaskTree, taskOf t ∈ flattenTree t := by
  intro t
  match t with
  | .node s f cs =>
    rw [flattenTree]
    exact List.mem_cons_self _ _

/-- A tree's emission contains everything emitted by any of its children. -/
theorem mem_flattenTree_of_child : ∀ (t c : TaskTree), c ∈ t.children.toList →
    ∀ x ∈ flattenTree c, x ∈ flattenTree t := by
  intro t c hc x hx
  match t with
  | .node s f cs =>
    rw [flattenTree]
    exact List.mem_cons_of_mem _ (mem_flattenForest_of_mem cs c hc x hx)

/-- Every subtree's record appears in the tree's emission. -/
theorem taskOf_mem_flattenTree {sub t : TaskTree} (h : IsSubtree sub t) :
    taskOf sub ∈ flattenTree t := by
  induction h with
  | refl => exact taskOf_mem_flattenTree_self _
  | child hc hsub ih =>
    rename_i c t2
    exact mem_flattenTree_of_child t2 c hc _ ih

mutual
theorem flattenTree_mem_subtree (t : TaskTree) (x : Task)
    (hx : x ∈ flattenTree t) : ∃ sub, IsSubtree sub t ∧ x = taskOf sub := by
  match t with
  | .node s f cs =>
    rw [flattenTree, List.mem_cons] at hx
    rcases hx with rfl | hx
    · exact ⟨.node s f cs, IsSubtree.refl _, rfl⟩
    · obtain ⟨c, hc, sub, hsub, hxeq⟩ := flattenForest_mem_subtree cs x hx
      exact ⟨sub, IsSubtree.child hc hsub, hxeq⟩
theorem flattenForest_mem_subtree (cs : TaskForest) (x : Task)
    (hx : x ∈ flattenForest cs) :
    ∃ c ∈ cs.toList, ∃ sub, IsSubtree sub c ∧ x = taskOf sub := by
  match cs with
  | .nil => exact absurd hx (by simp [flattenForest])
  | .cons t ts =>
    rw [flattenForest, List.mem_append] at hx
    rcases hx with hx | hx
    · obtain ⟨sub, hsub, hxeq⟩ := flattenTree_mem_subtree t x hx
      exact ⟨t, by rw [TaskForest.toList]; exact List.mem_cons_self _ _,
        sub, hsub, hxeq⟩
    · obtain ⟨c, hc, sub, hsub, hxeq⟩ := flattenForest_mem_subtree ts x hx
      exact ⟨c, by rw [TaskForest.toList]; exact List.mem_cons_of_mem _ hc,
        sub, hsub, hxeq⟩
end

/-- Well-nestedness is inherited by every subtree. -/
theorem wellNested_subtree {sub t : TaskTree} (hs : IsSubtree sub t) :
    WellNested t → WellNested sub := by
  induction hs with
  | refl => exact fun ht => ht
  | child hc hsub ih =>
    rename_i c t2
    intro ht
    cases ht with
    | node hsf hbounds hchain hall => exact ih (hall _ hc)

theorem mem_takeWhile_mem {α : Type} (p : α → Bool) :
    ∀ (l : List α) (x : α), x ∈ l.takeWhile p → x ∈ l := by
  intro l
  induction l with
  | nil => intro x hx; exact absurd hx (by simp)
  | cons a as ih =>
    intro x hx
    rw [List.takeWhile_cons] at hx
    by_cases h : p a
    · rw [if_pos h, List.mem_cons] at hx
      rcases hx with rfl | hx
      · exact List.mem_cons_self _ _
      · exact List.mem_cons_of_mem _ (ih x hx)
    · rw [if_neg h] at hx
      exact absurd hx (by simp)

theorem mem_dropWhile_mem {α : Type} (p : α → Bool) :
    ∀ (l : List α) (x : α), x ∈ l.dropWhile p → x ∈ l := by
  intro l
  induction l with
  | nil => intro x hx; exact absurd hx (by simp)
  | cons a as ih =>
    intro x hx
    rw [List.dropWhile_cons] at hx
    by_cases h : p a
    · rw [if_pos h] at hx
      exact List.mem_cons_of_mem _ (ih x hx)
    · rw [if_neg h] at hx
      exact hx

theorem dropWhile_head_false {α : Type} (p : α → Bool) :
    ∀ (l : List α) (x : α) (xs : List α), l.dropWhile p = x :: xs →
      p x = false := by
  intro l
  induction l with
  | nil => intro x xs h; exact absurd h (by simp)
  | cons a as ih =>
    intro x xs h
    rw [List.dropWhile_cons] at h
    by_cases hp : p a
    · rw [if_pos hp] at h
      exact ih x xs h
    · rw [if_neg hp] at h
      cases h
      exact Bool.of_not_eq_true hp

/-- The invariant carried while folding the sorted events into a forest:
every root is well nested, the roots are in order and pairwise disjoint,
and every root starts at the start of one of the events. -/
def RootsOf (l : List TaskIv) (forest : List TaskTree) : Prop :=
  (∀ t ∈ forest, WellNested t) ∧
  List.Chain' (fun a b : TaskTree => a.finish ≤ b.start) forest ∧
  (∀ t ∈ forest, ∃ iv ∈ l, t.start = iv.start)

theorem insertTask_inv (iv : TaskIv) (l : List TaskIv)
    (forest forest2 : List TaskTree)
    (hsort : ∀ iv2 ∈ l, iv.start ≤ iv2.start)
    (hinv : RootsOf l forest)
    (hok : insertTask iv forest = .ok forest2) :
    RootsOf (iv :: l) forest2 := by
  obtain ⟨hwn, hchain, horigin⟩ := hinv
  rw [insertTask] at hok
  by_cases h0 : iv.finish < iv.start
  · rw [if_pos h0] at hok
    exact absurd hok (by simp)
  · rw [if_neg h0] at hok
    by_cases h1 : (forest.takeWhile (fun t => decide ( t.start < iv.finish))).all
        (fun t => decide ( t.finish ≤ iv.finish)) = true
    · rw [if_pos h1] at hok
      have hf2 := (Except.ok.inj hok).symm
      have hchain2 : List.Chain'
          (fun a b : TaskTree => a.finish ≤ b.start)
          (forest.takeWhile (fun t => decide ( t.start < iv.finish)) ++
            forest.dropWhile (fun t => decide ( t.start < iv.finish))) := by
        rw [List.takeWhile_append_dropWhile]
        exact hchain
      have hstarts : ∀ c ∈ forest.takeWhile
          (fun t => decide ( t.start < iv.finish)), iv.start ≤ c.start := by
        intro c hc
        obtain ⟨iv2, hiv2, heq⟩ := horigin c (mem_takeWhile_mem _ forest c hc)
        rw [heq]
        exact hsort iv2 hiv2
      have hends : ∀ c ∈ forest.takeWhile
          (fun t => decide ( t.start < iv.finish)), c.finish ≤ iv.finish := by
        intro c hc
        exact of_decide_eq_true (List.all_eq_true.mp h1 c hc)
      refine hf2 ▸ ⟨?_, ?_, ?_⟩
      · intro t ht
        rw [List.mem_cons] at ht
        rcases ht with rfl | ht
        · refine WellNested.node (not_lt.mp h0) ?_ ?_ ?_
          · intro c hc
            rw [TaskForest.toList_ofList] at hc
            exact ⟨hstarts c hc, hends c hc⟩
          · rw [TaskForest.toList_ofList]
            exact hchain2.left_of_append
          · intro c hc
            rw [TaskForest.toList_ofList] at hc
            exact hwn c (mem_takeWhile_mem _ forest c hc)
        · exact hwn t (mem_dropWhile_mem _ forest t ht)
      · rw [List.chain'_cons']
        refine ⟨?_, hchain2.right_of_append⟩
        intro y hy
        cases hdrop : forest.dropWhile (fun t => decide ( t.start < iv.finish)) with
        | nil => rw [hdrop] at hy; exact absurd hy (by simp)
        | cons z zs =>
          rw [hdrop] at hy
          rw [List.head?_cons, Option.mem_some_iff] at hy
          have hz := dropWhile_head_false _ forest z zs hdrop
          rw [decide_eq_false_iff_not, not_lt] at hz
          show TaskTree.finish (.node iv.start iv.finish _) ≤ y.start
          rw [← hy]
          exact hz
      · intro t ht
        rw [List.mem_cons] at ht
        rcases ht with rfl | ht
        · exact ⟨iv, List.mem_cons_self _ _, rfl⟩
        · obtain ⟨iv2, hiv2, heq⟩ := horigin t (mem_dropWhile_mem _ forest t ht)
          exact ⟨iv2, List.mem_cons_of_mem _ hiv2, heq⟩
    · rw [if_neg h1] at hok
      exact absurd hok (by simp)

theorem buildForest_inv : ∀ (l : List TaskIv),
    l.Pairwise (fun a b => a.start ≤ b.start) →
    ∀ forest, buildForest l = .ok forest → RootsOf l forest := by
  intro l
  induction l with
  | nil =>
    intro _ forest h
    have : Except.ok (ε := TaskError) ([] : List TaskTree) = .ok forest := h
    have hf := (Except.ok.inj this)
    rw [← hf]
    exact ⟨by simp, by simp, by simp⟩
  | cons iv rest ih =>
    intro hp forest h
    rw [buildForest] at h
    cases hb : buildForest rest with
    | error e =>
      rw [hb] at h
      exact absurd h (by simp [Except.bind])
    | ok f =>
      rw [hb] at h
      simp only [Except.bind] at h
      have hsort : ∀ iv2 ∈ rest, iv.start ≤ iv2.start :=
        fun iv2 h2 => (List.pairwise_cons.mp hp).1 iv2 h2
      exact insertTask_inv iv rest f forest hsort (ih hp.of_cons f hb) h

/-- Claim C10: for every start-sorted top-level event list accepted by
`getMainThreadTasks`: the emitted tasks are exactly the flattening of the
constructed forest; every tree of the forest is well nested (each child's
interval lies within its parent's, children in order and pairwise
disjoint), and so is every subtree; the top-level tasks are pairwise
disjoint; every emitted task is the record of a subtree reachable from
some top-level task through children links, and conversely every subtree
reachable from a top-level task has its record emitted, with self-time
equal to its duration minus the total duration of its children; and the
self-times of all tasks sum to the total duration of the top-level
tasks. -/
theorem getMainThreadTasks_invariants (l : List TaskIv)
    (hsorted : l.Pairwise (fun a b => a.start ≤ b.start))
    (forest : List TaskTree)
    (hok : buildForest l = .ok forest) :
    getMainThreadTasks l = .ok ((forest.map flattenTree).flatten) ∧
    (∀ t ∈ forest, WellNested t) ∧
    (∀ t ∈ forest, ∀ sub, IsSubtree sub t → WellNested sub) ∧
    List.Chain' (fun a b : TaskTree => a.finish ≤ b.start) forest ∧
    (∀ x ∈ (forest.map flattenTree).flatten,
      ∃ t ∈ forest, ∃ sub, IsSubtree sub t ∧ x = taskOf sub) ∧
    (∀ t ∈ forest, ∀ sub, IsSubtree sub t →
      taskOf sub ∈ (forest.map flattenTree).flatten ∧
      (taskOf sub).selfTime = sub.duration - childrenDuration sub.children) ∧
    (((forest.map flattenTree).flatten).map Task.selfTime).sum =
      (forest.map TaskTree.duration).sum := by
  obtain ⟨hwn, hchain, horigin⟩ := buildForest_inv l hsorted forest hok
  refine ⟨?_, hwn, ?_, hchain, ?_, ?_, flattenRoots_selfTime_sum forest⟩
  · rw [getMainThreadTasks, hok]
    rfl
  · intro t ht sub hsub
    exact wellNested_subtree hsub (hwn t ht)
  · intro x hx
    obtain ⟨fl, hfl, hxfl⟩ := List.mem_flatten.mp hx
    obtain ⟨t, ht, hteq⟩ := List.mem_map.mp hfl
    obtain ⟨sub, hsub, hxeq⟩ := flattenTree_mem_subtree t x (hteq ▸ hxfl)
    exact ⟨t, ht, sub, hsub, hxeq⟩
  · intro t ht sub hsub
    refine ⟨List.mem_flatten.mpr ⟨flattenTree t, List.mem_map_of_mem _ ht,
      taskOf_mem_flattenTree hsub⟩, rfl⟩

/-- Witness for claim C10 at the repository's nested fixture: TaskA
0–100ms containing TaskB 5–55ms containing TaskC 10–40ms. -/
theorem getMainThreadTasks_invariants_witness :
    getMainThreadTasks [⟨0, 100⟩, ⟨5, 55⟩, ⟨10, 40⟩] = .ok
      (([TaskTree.node 0 100
          (.cons (.node 5 55 (.cons (.node 10 40 .nil) .nil)) .nil)].map
        flattenTree).flatten) ∧
    (∀ t ∈ [TaskTree.node 0 100
        (.cons (.node 5 55 (.cons (.node 10 40 .nil) .nil)) .nil)],
      WellNested t) ∧
    (∀ t ∈ [TaskTree.node 0 100
        (.cons (.node 5 55 (.cons (.node 10 40 .nil) .nil)) .nil)],
      ∀ sub, IsSubtree sub t → WellNested sub) ∧
    List.Chain' (fun a b : TaskTree => a.finish ≤ b.start)
      [TaskTree.node 0 100
        (.cons (.node 5 55 (.cons (.node 10 40 .nil) .nil)) .nil)] ∧
    (∀ x ∈ ([TaskTree.node 0 100
        (.cons (.node 5 55 (.cons (.node 10 40 .nil) .nil)) .nil)].map
          flattenTree).flatten,
      ∃ t ∈ [TaskTree.node 0 100
        (.cons (.node 5 55 (.cons (.node 10 40 .nil) .nil)) .nil)],
        ∃ sub, IsSubtree sub t ∧ x = taskOf sub) ∧
    (∀ t ∈ [TaskTree.node 0 100
        (.cons (.node 5 55 (.cons (.node 10 40 .nil) .nil)) .nil)],
      ∀ sub, IsSubtree sub t →
      taskOf sub ∈ ([TaskTree.node 0 100
        (.cons (.node 5 55 (.cons (.node 10 40 .nil) .nil)) .nil)].map
          flattenTree).flatten ∧
      (taskOf sub).selfTime = sub.duration - childrenDuration sub.children) ∧
    ((([TaskTree.node 0 100
        (.cons (.node 5 55 (.cons (.node 10 40 .nil) .nil)) .nil)].map
          flattenTree).flatten).map Task.selfTime).sum =
      ([TaskTree.node 0 100
        (.cons (.node 5 55 (.cons (.node 10 40 .nil) .nil)) .nil)].map
          TaskTree.duration).sum :=
  getMainThreadTasks_invariants [⟨0, 100⟩, ⟨5, 55⟩, ⟨10, 40⟩] (by decide)
    [TaskTree.node 0 100 (.cons (.node 5 55 (.cons (.node 10 40 .nil) .nil)) .nil)]
    rfl

end MainThreadTasks

/-! ## Lantern simulator

Modelled from the spec: the simulator implementation
(`lighthouse-core/lib/dependency-graph/simulator/simulator.js`) is not
present in this repository, so the model below follows spec section 4.3:
a discrete-event loop over the dependency graph in which a node becomes
ready once all its dependencies are complete, ready nodes start greedily
in original node order (the spec's determinism tie-break), network nodes
compete for a fixed number of parallel connections, CPU nodes queue
strictly behind the single simulated CPU, and each completion advances
simulated time to the next finish event.  A simulator instance carries
mutable per-run state (the timing map, the in-progress set, the clock);
per the spec every run begins by re-initialising that state, which is
what makes the output a function of the graph and parameters alone. -/

namespace LanternSimulator

/-- Modelled from the spec: the throttling profile. -/
structure SimParams where
  latency : ℤ
  throughputBytesPerMs : ℤ
  cpuMultiplier : ℤ
  connections : ℕ
deriving DecidableEq

/-- A node is a network request (costed by transfer size) or a CPU task
(costed by self-time). -/
inductive SimNodeKind where
  | network (transferSize : ℤ)
  | cpu (selfTime : ℤ)
deriving DecidableEq

/-- A node of the dependency graph handed to the simulator. -/
structure SimNode where
  id : ℕ
  kind : SimNodeKind
  deps : List ℕ
deriving DecidableEq

/-- Modelled from the spec: a network node's simulated duration is its
transfer size over the simulated throughput plus the modelled latency; a
CPU node's is its self-time scaled by the CPU slowdown multiplier. -/
def nodeDuration (p : SimParams) (n : SimNode) : ℤ :=
  match n.kind with
  | .network size => size / max p.throughputBytesPerMs 1 + p.latency
  | .cpu self => self * p.cpuMultiplier

def isNetwork (n : SimNode) : Bool :=
  match n.kind with
  | .network _ => true
  | .cpu _ => false

/-- The simulator instance state threaded through one run: completed node
timings (id, start, end), nodes in progress, and the simulated clock. -/
structure SimState where
  nodeTimings : List (ℕ × ℤ × ℤ)
  inProgress : List (ℕ × ℤ × ℤ)
  time : ℤ
deriving DecidableEq

def isStarted (st : SimState) (i : ℕ) : Bool :=
  st.nodeTimings.any (fun x => decide (x.1 = i)) ||
  st.inProgress.any (fun x => decide (x.1 = i))

/-- A node is ready when it has not started and every dependency has
completed. -/
def isReady (st : SimState) (n : SimNode) : Bool :=
  !isStarted st n.id &&
  n.deps.all (fun d => st.nodeTimings.any (fun x => decide (x.1 = d)))

def countInProgress (nodes : List SimNode) (st : SimState) (net : Bool) : ℕ :=
  st.inProgress.countP (fun x =>
    (nodes.find? (fun n => decide (n.id = x.1))).elim false
      (fun n => isNetwork n == net))

/-- Greedily start every ready node with free capacity, in original node
order: network nodes take connections while some remain, CPU nodes start
only when the single CPU is free. -/
def startReady (p : SimParams) (nodes : List SimNode) (st : SimState) :
    SimState :=
  nodes.foldl (fun acc n =>
    if isReady acc n then
      if isNetwork n then
        if countInProgress nodes acc true < p.connections then
          { acc with inProgress :=
              acc.inProgress ++ [(n.id, acc.time, acc.time + nodeDuration p n)] }
        else acc
      else
        if countInProgress nodes acc false = 0 then
          { acc with inProgress :=
              acc.inProgress ++ [(n.id, acc.time, acc.time + nodeDuration p n)] }
        else acc
    else acc) st

def minFinish : List (ℕ × ℤ × ℤ) → Option ℤ
  | [] => none
  | x :: xs => some ((xs.map (fun y => y.2.2)).foldl min x.2.2)

/-- Advance the clock to the earliest finish event and complete every node
finishing then. -/
def advance (st : SimState) : SimState :=
  match minFinish st.inProgress with
  | none => st
  | some T =>
    { nodeTimings := st.nodeTimings ++
        st.inProgress.filter (fun x => decide (x.2.2 = T))
      inProgress := st.inProgress.filter (fun x => !decide (x.2.2 = T))
      time := T }

/-- The event loop: start what can start, then either stop (nothing in
flight) or advance to the next completion. -/
def simLoop (p : SimParams) (nodes : List SimNode) :
    ℕ → SimState → SimState
  | 0, st => st
  | fuel + 1, st =>
    if (startReady p nodes st).inProgress.isEmpty then startReady p nodes st
    else simLoop p nodes fuel (advance (startReady p nodes st))

/-- The simulation estimate: total completion time and per-node timings. -/
structure SimResult where
  timeInMs : ℤ
  nodeTimings : List (ℕ × ℤ × ℤ)
deriving DecidableEq

def totalTime (st : SimState) : ℤ :=
  (st.nodeTimings.map (fun x => x.2.2)).foldl max 0

/-- Modelled from the spec: one simulation run over an instance.  The run
first re-initialises the instance's per-run state — fresh timing map,
empty in-progress set, clock at zero — then executes the event loop and
leaves the run's final state on the instance. -/
def simulate (p : SimParams) (nodes : List SimNode) (_st : SimState) :
    SimResult × SimState :=
  match simLoop p nodes (2 * nodes.length + 2)
      { nodeTimings := [], inProgress := [], time := 0 } with
  | out => (⟨totalTime out, out.nodeTimings⟩, out)

/-- Claim C7: the simulation is a deterministic function of the graph and
the throttling parameters.  Because every run re-initialises the
instance's per-run state, two runs from any two instance states — in
particular a repeated run on the very same instance — produce the same
`timeInMs` and the same `nodeTimings`. -/
theorem simulate_deterministic (p : SimParams) (nodes : List SimNode)
    (s1 s2 : SimState) :
    ((simulate p nodes s1).1.timeInMs = (simulate p nodes s2).1.timeInMs ∧
      (simulate p nodes s1).1.nodeTimings = (simulate p nodes s2).1.nodeTimings) ∧
    (simulate p nodes (simulate p nodes s1).2).1 = (simulate p nodes s1).1 :=
  ⟨⟨rfl, rfl⟩, rfl⟩

end LanternSimulator

/-! ## The computed-artifact cache

Modelled from the spec (section 5 and design note on the computation
cache): computations receive an explicit cache keyed by the input
fingerprint of trace, devtools log and settings; `request` returns the
memoized result when the fingerprint is present and otherwise runs the
computation once and stores the result.  The test
`test/computed/speedline-test.js` ("uses a cache") pins that a second
request with the same fingerprint returns the cached result without
recomputing. -/

namespace ComputedArtifact

/-- Modelled from the spec: the input fingerprint — the identity of the
trace, devtools log and settings a computation was invoked with. -/
structure Fingerprint where
  trace : ℕ
  devtoolsLog : ℕ
  settings : ℕ
deriving DecidableEq

/-- Modelled from the spec: a process-scoped fingerprint-to-result map
with no eviction. -/
structure Cache (β : Type) where
  entries : List (Fingerprint × β)

def Cache.lookup {β : Type} (c : Cache β) (k : Fingerprint) : Option β :=
  (c.entries.find? (fun e => decide (e.1 = k))).map (fun e => e.2)

/-- Modelled from the spec: request a computed artifact.  On a cache hit
the memoized result is returned and the computation does not run; on a
miss the computation runs once and its result is stored.  The Bool
records whether the underlying computation ran. -/
def request {β : Type} (compute : Fingerprint → β) (k : Fingerprint)
    (c : Cache β) : β × Cache β × Bool :=
  match c.lookup k with
  | some v => (v, c, false)
  | none => (compute k, ⟨c.entries ++ [(k, compute k)]⟩, true)

/-- Claim C8: for every computation and fingerprint, a second request with
the same fingerprint against the cache left by the first returns the very
result of the first request, performs no work, and leaves the cache
unchanged; and the underlying computation runs during the first request
exactly when the fingerprint was not already cached. -/
theorem request_cached {β : Type} (compute : Fingerprint → β)
    (k : Fingerprint) (c : Cache β) :
    (request compute k (request compute k c).2.1).1 = (request compute k c).1 ∧
    (request compute k (request compute k c).2.1).2.2 = false ∧
    (request compute k (request compute k c).2.1).2.1 =
      (request compute k c).2.1 ∧
    ((request compute k c).2.2 = true ↔ c.lookup k = none) := by
  cases hl : c.lookup k with
  | some v =>
    have h1 : request compute k c = (v, c, false) := by
      rw [request, hl]
    rw [h1]
    refine ⟨?_, ?_, ?_, ?_⟩
    · show (request compute k c).1 = v
      rw [h1]
    · show (request compute k c).2.2 = false
      rw [h1]
    · show (request compute k c).2.1 = c
      rw [h1]
    · show false = true ↔ some v = none
      simp
  | none =>
    have h1 : request compute k c =
        (compute k, ⟨c.entries ++ [(k, compute k)]⟩, true) := by
      rw [request, hl]
    rw [h1]
    have hl2 : (Cache.mk (c.entries ++ [(k, compute k)]) : Cache β).lookup k =
        some (compute k) := by
      rw [Cache.lookup]
      show ((c.entries ++ [(k, compute k)]).find?
        (fun e => decide (e.1 = k))).map (fun e => e.2) = some (compute k)
      rw [List.find?_append]
      have hnone : c.entries.find? (fun e => decide (e.1 = k)) = none := by
        rw [Cache.lookup] at hl
        exact Option.map_eq_none'.mp hl
      rw [hnone, Option.none_or]
      rw [List.find?_cons_of_pos _ (by simp)]
      rfl
    rw [request, hl2]
    exact ⟨rfl, rfl, rfl, by simp [hl]⟩

/-- Witness for claim C8 on a concrete computation: a cold cache computes
once, and the repeated request is served from the cache. -/
theorem request_cached_witness :
    (request (fun f => f.trace + f.settings) ⟨3, 4, 5⟩
      (request (fun f => f.trace + f.settings) ⟨3, 4, 5⟩ ⟨[]⟩).2.1).1 =
      (request (fun f => f.trace + f.settings) ⟨3, 4, 5⟩ ⟨[]⟩).1 ∧
    (request (fun f => f.trace + f.settings) ⟨3, 4, 5⟩
      (request (fun f => f.trace + f.settings) ⟨3, 4, 5⟩ ⟨[]⟩).2.1).2.2 = false ∧
    (request (fun f => f.trace + f.settings) ⟨3, 4, 5⟩
      (request (fun f => f.trace + f.settings) ⟨3, 4, 5⟩ ⟨[]⟩).2.1).2.1 =
      (request (fun f => f.trace + f.settings) ⟨3, 4, 5⟩ ⟨[]⟩).2.1 ∧
    ((request (fun f => f.trace + f.settings) ⟨3, 4, 5⟩ ⟨[]⟩).2.2 = true ↔
      (Cache.mk (β := ℕ) []).lookup ⟨3, 4, 5⟩ = none) :=
  request_cached (fun f => f.trace + f.settings) ⟨3, 4, 5⟩ ⟨[]⟩

end ComputedArtifact

end LH
